import Mathlib

/-!
Verification of the Behance Analyzer collection pipeline.

This file gives a shallow embedding, in Lean 4, of the parts of the
repository (src/scraper.py, src/db.py) that the stated properties are
about, and proves or refutes each property against that embedding.

Strings are modelled as `List Char` (Python `str`), absent values as
`Option`, raised exceptions as `Except`.  Python's arbitrary-precision
`int` is `Nat`/`Int`.  Where `float` arithmetic occurs (`_parse_number`),
decimal values are modelled exactly over integers; IEEE-754 rounding of
finite values is not modelled (it only diverges beyond 15 significant
digits, far outside every value considered here).  Both exceptions that
`float()`/`int()` can raise there ARE modelled: the `ValueError` on a
malformed literal, and the `OverflowError` when the scaled value reaches
the IEEE binary64 overflow threshold `2 ^ 1024 - 2 ^ 970`, at which
point the product is `inf` and `int(inf)` raises.  The threshold is
tested on the exact decimal value; the rounded value can put an input on
the other side of it only within half an ulp of the threshold itself,
the same boundary-rounding caveat as above.
-/

/-! ## Character helpers -/

/-- Python `str.strip()` / `\s` whitespace, restricted to the characters
that can actually occur in the scraped text handled here (ASCII
whitespace and the no-break space U+00A0, which Python treats as
whitespace). -/
def isWs (c : Char) : Bool :=
  c = ' ' || c = '\t' || c = '\n' || c = '\r' || c = '\x0b' || c = '\x0c' || c = ' '

def notWs (c : Char) : Bool := !(isWs c)

/-- Python `str.lower()`, restricted to the alphabets appearing in the
scraped text: ASCII A-Z and Cyrillic А-Я/Ё (all month names and keywords
in the source are drawn from these). -/
def pyLowerChar (c : Char) : Char :=
  if 'A' ≤ c ∧ c ≤ 'Z' then Char.ofNat (c.toNat + 32)
  else if 'А' ≤ c ∧ c ≤ 'Я' then Char.ofNat (c.toNat + 32)
  else if c = 'Ё' then 'ё'
  else c

/-- Python `str.strip()`: drop whitespace from both ends. -/
def pyStrip (s : List Char) : List Char :=
  ((s.dropWhile isWs).reverse.dropWhile isWs).reverse

/-! ## Decimal digit strings -/

def digitChar (n : Nat) : Char :=
  if n = 0 then '0' else if n = 1 then '1' else if n = 2 then '2'
  else if n = 3 then '3' else if n = 4 then '4' else if n = 5 then '5'
  else if n = 6 then '6' else if n = 7 then '7' else if n = 8 then '8' else '9'

/-- Decimal rendering of a natural number, with fuel so that it reduces
inside the kernel (the fuel `n` always suffices). -/
def natDigitsAux : Nat → Nat → List Char
  | 0, n => [digitChar n]
  | fuel + 1, n =>
    if n < 10 then [digitChar n]
    else natDigitsAux fuel (n / 10) ++ [digitChar (n % 10)]

/-- Decimal rendering of a natural number (the digit string appearing in
a scraped sentence such as a day or year). -/
def natDigits (n : Nat) : List Char := natDigitsAux n n

theorem natDigitsAux_congr : ∀ (f1 f2 n : Nat), n ≤ f1 → n ≤ f2 →
    natDigitsAux f1 n = natDigitsAux f2 n := by
  intro f1
  induction f1 using Nat.strong_induction_on with
  | _ f1 ih =>
    intro f2 n h1 h2
    match f1, f2 with
    | 0, 0 => rfl
    | 0, g + 1 =>
      have hn : n = 0 := by omega
      subst hn
      simp [natDigitsAux]
    | f + 1, 0 =>
      have hn : n = 0 := by omega
      subst hn
      simp [natDigitsAux]
    | f + 1, g + 1 =>
      simp only [natDigitsAux]
      split
      · rfl
      · rename_i h10
        rw [ih f (by omega) g (n / 10) (by omega) (by omega)]

theorem natDigits_eq (n : Nat) : natDigits n =
    if n < 10 then [digitChar n]
    else natDigits (n / 10) ++ [digitChar (n % 10)] := by
  unfold natDigits
  rcases Nat.lt_or_ge n 10 with h | h
  · rw [if_pos h]
    cases n with
    | zero => rfl
    | succ k => simp [natDigitsAux, h]
  · rw [if_neg (by omega)]
    cases n with
    | zero => omega
    | succ k =>
      show natDigitsAux (k + 1) (k + 1) = _
      simp only [natDigitsAux]
      rw [if_neg (by omega)]
      rw [natDigitsAux_congr k ((k + 1) / 10) ((k + 1) / 10) (by omega) (by omega)]

/-- Value of a decimal digit string, as computed by Python `int()` on a
digits-only string (also the accumulator loop underlying it). -/
def parseNatD (s : List Char) : Nat :=
  s.foldl (fun a c => a * 10 + (c.toNat - 48)) 0

theorem digitChar_isDigit (n : Nat) : (digitChar n).isDigit = true := by
  unfold digitChar; split_ifs <;> decide

theorem digitChar_val (n : Nat) (h : n < 10) : (digitChar n).toNat - 48 = n := by
  unfold digitChar
  split_ifs with h0 h1 h2 h3 h4 h5 h6 h7 h8 <;> simp_all <;> omega

theorem natDigits_ne_nil (n : Nat) : natDigits n ≠ [] := by
  rw [natDigits_eq]
  split <;> simp

theorem natDigits_all_digit (n : Nat) : ∀ c ∈ natDigits n, c.isDigit = true := by
  induction n using Nat.strong_induction_on with
  | _ n ih =>
    rw [natDigits_eq]
    split
    · intro c hc
      simp at hc
      subst hc
      exact digitChar_isDigit n
    · intro c hc
      simp at hc
      rcases hc with hc | hc
      · exact ih (n / 10) (Nat.div_lt_self (by omega) (by omega)) c hc
      · subst hc
        exact digitChar_isDigit (n % 10)

theorem parseNatD_append_digit (s : List Char) (c : Char) :
    parseNatD (s ++ [c]) = parseNatD s * 10 + (c.toNat - 48) := by
  simp [parseNatD, List.foldl_append]

theorem parseNatD_natDigits (n : Nat) : parseNatD (natDigits n) = n := by
  induction n using Nat.strong_induction_on with
  | _ n ih =>
    rw [natDigits_eq]
    split
    · rename_i h
      simp [parseNatD, digitChar_val n h]
    · rename_i h
      rw [parseNatD_append_digit]
      rw [ih (n / 10) (Nat.div_lt_self (by omega) (by omega))]
      rw [digitChar_val (n % 10) (Nat.mod_lt _ (by omega))]
      omega

/-! ## C1: the numeric-stat parser `_parse_number` (src/scraper.py 33-45)

```python
def _parse_number(text: str | None) -> int:
    if not text:
        return 0
    text = text.strip().replace(",", "").replace(" ", "")
    m = re.match(r"([\d.]+)\s*[kKкК]", text)
    if m:
        return int(float(m.group(1)) * 1000)
    m = re.match(r"([\d.]+)\s*[mMмМ]", text)
    if m:
        return int(float(m.group(1)) * 1_000_000)
    digits = re.sub(r"[^\d]", "", text)
    return int(digits) if digits else 0
```
-/

def isDigitDot (c : Char) : Bool := c.isDigit || c = '.'

/-- `text.strip().replace(",", "").replace(" ", "")` (replacement of
a single character by the empty string is a filter). -/
def numClean (s : List Char) : List Char :=
  ((pyStrip s).filter (fun c => c ≠ ',')).filter (fun c => c ≠ ' ')

/-- `re.match(r"([\d.]+)\s*[X]", text)` for a character class `X`:
anchored at the start, the group is the maximal run of digits and dots
(backtracking to a shorter run can never succeed, because the character
after a shorter run is again a digit or dot, which is neither whitespace
nor in the class), then optional whitespace, then one class character.
Returns the captured group. -/
def magMatch (suffixChars : List Char) (s : List Char) : Option (List Char) :=
  let run := s.takeWhile isDigitDot
  if run.isEmpty then none
  else
    match (s.dropWhile isDigitDot).dropWhile isWs with
    | [] => none
    | c :: _ => if c ∈ suffixChars then some run else none

/-- Python `float()` succeeds on a string drawn from `[\d.]+` iff it has
at most one dot and at least one digit. -/
def pyFloatValid (s : List Char) : Bool :=
  (s.filter (fun c => c = '.')).length ≤ 1 && !(s.filter Char.isDigit).isEmpty

/-- Integer part and fractional part of a `[\d.]+` literal. -/
def splitAtDot (s : List Char) : List Char × List Char :=
  (s.takeWhile (fun c => c ≠ '.'), (s.dropWhile (fun c => c ≠ '.')).drop 1)

/-- `int(float(s) * scale)` computed exactly: truncation of the scaled
decimal value (exact for every finite value; IEEE rounding of finite
values is not modelled, see the header note). -/
def decScaled (s : List Char) (scale : Nat) : Nat :=
  let ip := (splitAtDot s).1
  let fp := (splitAtDot s).2
  parseNatD ip * scale + parseNatD fp * scale / 10 ^ fp.length

/-- The smallest positive real value that IEEE binary64 (round to
nearest, ties to even — CPython `float`) rounds up to infinity: half an
ulp above the largest finite double. -/
def FLOAT_OVFL : Nat := 2 ^ 1024 - 2 ^ 970

/-- Exact value of a `[\d.]+` decimal literal, as the numerator over
`10 ^ (number of fractional digits)`. -/
def decValNum (s : List Char) : Nat :=
  parseNatD (splitAtDot s).1 * 10 ^ (splitAtDot s).2.length + parseNatD (splitAtDot s).2

/-- `int(float(s) * scale)` raises `OverflowError`: the scaled decimal
value reaches the IEEE overflow threshold, so `float(s)` is `inf` (for a
group of roughly 309 or more significant digits) or the product
`float(s) * scale` is, and `int(inf)` raises.  The comparison is
`value * scale >= FLOAT_OVFL` over exact rationals, cleared of the
`10 ^ k` denominator. -/
def decOverflow (s : List Char) (scale : Nat) : Bool :=
  decide (FLOAT_OVFL * 10 ^ (splitAtDot s).2.length ≤ decValNum s * scale)

def kSuffixChars : List Char := ['k', 'K', 'к', 'К']

def mSuffixChars : List Char := ['m', 'M', 'м', 'М']

/-- The two exceptions `_parse_number` can raise: `ValueError` from
`float()` on a malformed literal, `OverflowError` from `int()` on an
infinite float. -/
inductive PyErr where
  | valueError
  | overflowError
deriving DecidableEq

/-- Body of `_parse_number` for a non-`None` argument (src/scraper.py
34-45). -/
def parse_number_str (str : String) : Except PyErr Nat :=
  if str.data.isEmpty then .ok 0
  else
    match magMatch kSuffixChars (numClean str.data) with
    | some run =>
      if pyFloatValid run then
        if decOverflow run 1000 then .error .overflowError
        else .ok (decScaled run 1000)
      else .error .valueError
    | none =>
      match magMatch mSuffixChars (numClean str.data) with
      | some run =>
        if pyFloatValid run then
          if decOverflow run 1000000 then .error .overflowError
          else .ok (decScaled run 1000000)
        else .error .valueError
      | none => .ok (parseNatD ((numClean str.data).filter Char.isDigit))

/-- `_parse_number` (src/scraper.py 33-45). -/
def parse_number (text : Option String) : Except PyErr Nat :=
  match text with
  | none => .ok 0
  | some str => parse_number_str str

instance : DecidableEq (Except PyErr Nat) := fun a b =>
  match a, b with
  | .ok x, .ok y =>
    if h : x = y then isTrue (by rw [h]) else isFalse (by intro hh; cases hh; exact h rfl)
  | .error x, .error y =>
    if h : x = y then isTrue (by rw [h]) else isFalse (by intro hh; cases hh; exact h rfl)
  | .ok _, .error _ => isFalse (by intro h; cases h)
  | .error _, .ok _ => isFalse (by intro h; cases h)

/-- Both magnitude regexes, when they match, capture a group that is a
valid `float()` literal whose scaled value stays below the IEEE overflow
threshold (this is the condition under which the function cannot
raise). -/
def magRunsBenign (s : String) : Bool :=
  (match magMatch kSuffixChars (numClean s.data) with
   | some run => pyFloatValid run && !decOverflow run 1000
   | none => true) &&
  (match magMatch mSuffixChars (numClean s.data) with
   | some run => pyFloatValid run && !decOverflow run 1000000
   | none => true)

theorem parse_number_total (s : String) (hs : magRunsBenign s = true) :
    ∃ n, parse_number (some s) = .ok n := by
  unfold magRunsBenign at hs
  show ∃ n, parse_number_str s = .ok n
  unfold parse_number_str
  split
  · exact ⟨0, rfl⟩
  · rcases hk : magMatch kSuffixChars (numClean s.data) with _ | runk
    · rcases hm : magMatch mSuffixChars (numClean s.data) with _ | runm
      · exact ⟨_, rfl⟩
      · rw [hk, hm] at hs
        simp only [Bool.and_eq_true, Bool.not_eq_true'] at hs
        exact ⟨decScaled runm 1000000, by simp [hs.2.1, hs.2.2]⟩
    · rw [hk] at hs
      simp only [Bool.and_eq_true, Bool.not_eq_true'] at hs
      exact ⟨decScaled runk 1000, by simp [hs.1.1, hs.1.2]⟩

set_option maxRecDepth 40000 in
/-- Claim C1 (counterexample): `_parse_number` is claimed never to
raise, but it has two uncaught raise paths.  On `"..k"` the k-magnitude
regex matches with captured group `".."` and `float("..")` raises
`ValueError`.  On a group of 400 nines followed by `k` the group is a
well-formed literal, but its value is past the IEEE overflow threshold,
so `float()` returns `inf` and `int(inf * 1000)` raises
`OverflowError`.  Nothing catches either. -/
theorem parse_number_raises_uncaught :
    parse_number (some ("..k")) = Except.error PyErr.valueError ∧
    parse_number (some (String.mk (List.replicate 400 '9' ++ ['k'])))
      = Except.error PyErr.overflowError := by
  constructor
  · decide
  · decide

set_option maxRecDepth 8000 in
/-- Claim C1 (amended): the four magnitude examples parse as stated
(`"2 075"` both with an ASCII space and with a no-break space), absent
text parses to 0, and the function never raises **except** on a
magnitude match whose captured group is either not a valid decimal
literal (`ValueError`, e.g. `"..k"`) or a literal whose scaled value
reaches the IEEE binary64 overflow threshold (`OverflowError`, e.g.
400 nines then `k`). -/
theorem parse_number_amended_spec :
    parse_number (some ("2 075")) = .ok 2075 ∧
    parse_number (some ("2 075")) = .ok 2075 ∧
    parse_number (some ("2,075")) = .ok 2075 ∧
    parse_number (some ("1.2K")) = .ok 1200 ∧
    parse_number (some ("2М")) = .ok 2000000 ∧
    parse_number none = .ok 0 ∧
    (∀ s : String, magRunsBenign s = true → ∃ n, parse_number (some s) = .ok n) :=
  ⟨by decide, by decide, by decide, by decide, by decide, rfl, parse_number_total⟩

set_option maxRecDepth 8000 in
/-- Witness for the hypothesis of `parse_number_amended_spec`: at the
concrete input `"1.2K"` the benignity condition holds and the function
returns a value. -/
theorem parse_number_amended_spec_witness :
    ∃ n, parse_number (some ("1.2K")) = .ok n :=
  parse_number_amended_spec.2.2.2.2.2.2 ("1.2K") (by decide)

/-! ## Substring containment (Python `in` on strings) -/

def isPrefixOfL : List Char → List Char → Bool
  | [], _ => true
  | _ :: _, [] => false
  | c :: cs, d :: ds => c = d && isPrefixOfL cs ds

def containsSubL (p : List Char) : List Char → Bool
  | [] => p.isEmpty
  | c :: cs => isPrefixOfL p (c :: cs) || containsSubL p cs

theorem isPrefixOfL_exists {p s : List Char} (h : isPrefixOfL p s = true) :
    ∃ t, s = p ++ t := by
  induction p generalizing s with
  | nil => exact ⟨s, rfl⟩
  | cons c cs ih =>
    cases s with
    | nil => simp [isPrefixOfL] at h
    | cons d ds =>
      simp only [isPrefixOfL, Bool.and_eq_true, decide_eq_true_eq] at h
      obtain ⟨t, ht⟩ := ih h.2
      exact ⟨t, by rw [h.1, ht]; rfl⟩

theorem mem_of_containsSubL {p s : List Char} (h : containsSubL p s = true) :
    ∀ c ∈ p, c ∈ s := by
  induction s with
  | nil =>
    intro c hc
    simp [containsSubL, List.isEmpty_iff] at h
    simp [h] at hc
  | cons d ds ih =>
    intro c hc
    simp only [containsSubL, Bool.or_eq_true] at h
    rcases h with h | h
    · obtain ⟨t, ht⟩ := isPrefixOfL_exists h
      rw [ht]
      exact List.mem_append_left _ hc
    · exact List.mem_cons_of_mem _ (ih h c hc)

theorem containsSubL_eq_false {p s : List Char} {c : Char} (hc : c ∈ p) (hs : c ∉ s) :
    containsSubL p s = false := by
  by_contra h
  exact hs (mem_of_containsSubL (by simpa using h) c hc)

/-! ## C3: `upsert_project` (src/db.py 251-298)

An incoming observation is a partial record (`data.get(f)` is `none`
exactly when the Python dict has no value / `None` for `f`).  On first
observation the row is inserted with exactly the incoming values; on a
later observation each field in the fixed `fields` list is updated with
`COALESCE(?, field)`: the incoming value wins when non-null, otherwise
the stored value is kept.  `behance_id` / `first_seen` are never
updated; `last_seen` is always overwritten. -/

def projectUpsertFields : List String :=
  ["title", "url", "url_slug", "published_date",
   "publish_day_of_week", "publish_hour", "author_id",
   "module_count", "image_count", "video_count", "text_count",
   "embed_count", "description_length", "description_has_query_keywords",
   "title_keyword_match", "has_external_links", "external_link_count",
   "cover_image_url", "cover_image_width", "cover_image_height",
   "comments_count", "saves_count", "is_featured", "co_owners_count",
   "creative_fields", "tools_used", "is_my_project"]

/-- SQL `COALESCE(incoming, stored)` with a non-null/incoming first
argument winning. -/
def coalesce {V : Type} (incoming stored : Option V) : Option V :=
  match incoming with
  | some v => some v
  | none => stored

structure ProjectRow (V : Type) where
  behance_id : String
  fields : String → Option V
  first_seen : Nat
  last_seen : Nat

def projectRowMatches {V : Type} (bid : String) (row : ProjectRow V) : Bool :=
  row.behance_id == bid

/-- `upsert_project` (src/db.py 251-298): select by `behance_id`; update
the listed fields with `COALESCE` when found, insert otherwise. -/
def upsert_project {V : Type} (db : List (ProjectRow V)) (bid : String)
    (data : String → Option V) (now : Nat) : List (ProjectRow V) :=
  match db.find? (projectRowMatches bid) with
  | some _ =>
    db.map (fun row =>
      if projectRowMatches bid row then
        { row with
          fields := fun f =>
            if f ∈ projectUpsertFields then coalesce (data f) (row.fields f)
            else row.fields f,
          last_seen := now }
      else row)
  | none =>
    db ++ [{ behance_id := bid,
             fields := fun f => if f ∈ projectUpsertFields then data f else none,
             first_seen := now, last_seen := now }]

theorem find?_eq_none_all {α : Type} {p : α → Bool} {l : List α}
    (h : l.find? p = none) : ∀ x ∈ l, p x = false := by
  intro x hx
  rcases hpx : p x with _ | _
  · rfl
  · exact absurd (List.find?_isSome.mpr ⟨x, hx, hpx⟩) (by simp [h])

theorem find?_append_of_none {α : Type} {p : α → Bool} {l1 : List α} (l2 : List α)
    (h : l1.find? p = none) : (l1 ++ l2).find? p = l2.find? p := by
  induction l1 with
  | nil => rfl
  | cons a l ih =>
    have ha : p a = false := find?_eq_none_all h a (by simp)
    have hl : l.find? p = none := by
      rw [List.find?_cons_of_neg _ (by simp [ha])] at h
      exact h
    show List.find? p (a :: (l ++ l2)) = List.find? p l2
    rw [List.find?_cons_of_neg _ (by simp [ha])]
    exact ih hl

theorem find?_eq_none_of_all {α : Type} {p : α → Bool} {l : List α}
    (h : ∀ x ∈ l, p x = false) : l.find? p = none := by
  induction l with
  | nil => rfl
  | cons a l ih =>
    rw [List.find?_cons_of_neg _ (by simp [h a (by simp)])]
    exact ih (fun x hx => h x (by simp [hx]))

/-- Claim C3: for a project first observed in run 1 and observed again in
run 2, the stored row after both runs carries, on every upserted field,
exactly the field-wise coalesce of the two observations (incoming
non-null overwrites; incoming null keeps the stored value), and no field
non-null after run 1 is null after run 2. -/
theorem upsert_project_coalesce {V : Type} (db0 : List (ProjectRow V)) (bid : String)
    (obs1 obs2 : String → Option V) (t1 t2 : Nat)
    (h0 : db0.find? (projectRowMatches bid) = none)
    (f : String) (hf : f ∈ projectUpsertFields) :
    ∃ row, (upsert_project (upsert_project db0 bid obs1 t1) bid obs2 t2).find?
        (projectRowMatches bid) = some row ∧
      row.fields f = coalesce (obs2 f) (obs1 f) ∧
      (obs1 f ≠ none → row.fields f ≠ none) := by
  have hmatch : ∀ row : ProjectRow V, projectRowMatches bid row = true ↔ row.behance_id = bid := by
    intro row
    simp [projectRowMatches]
  set row1 : ProjectRow V :=
    { behance_id := bid,
      fields := fun g => if g ∈ projectUpsertFields then obs1 g else none,
      first_seen := t1, last_seen := t1 } with hrow1
  have hdb1 : upsert_project db0 bid obs1 t1 = db0 ++ [row1] := by
    unfold upsert_project
    rw [h0]
  have hp1 : projectRowMatches bid row1 = true := by
    rw [hmatch]
  have hfind1 : (db0 ++ [row1]).find? (projectRowMatches bid) = some row1 := by
    rw [find?_append_of_none _ h0, List.find?_cons_of_pos _ hp1]
  set g : ProjectRow V → ProjectRow V := fun row =>
    if projectRowMatches bid row then
      { row with
        fields := fun f =>
          if f ∈ projectUpsertFields then coalesce (obs2 f) (row.fields f)
          else row.fields f,
        last_seen := t2 }
    else row with hg
  have hdb2 : upsert_project (upsert_project db0 bid obs1 t1) bid obs2 t2
      = (db0 ++ [row1]).map g := by
    rw [hdb1]
    unfold upsert_project
    rw [hfind1]
  have hmap0 : (db0.map g).find? (projectRowMatches bid) = none := by
    apply find?_eq_none_of_all
    intro x hx
    obtain ⟨y, hy, hxy⟩ := List.mem_map.mp hx
    have hpy : projectRowMatches bid y = false := find?_eq_none_all h0 y hy
    rw [← hxy, hg]
    simp only [hpy]
    simp [hpy]
  have hgr1 : g row1 =
      { behance_id := bid,
        fields := fun f =>
          if f ∈ projectUpsertFields then coalesce (obs2 f) (row1.fields f)
          else row1.fields f,
        first_seen := t1, last_seen := t2 } := by
    rw [hg]
    simp only [hp1]
    simp
  have hpg1 : projectRowMatches bid (g row1) = true := by
    rw [hgr1, hmatch]
  refine ⟨g row1, ?_, ?_, ?_⟩
  · rw [hdb2, List.map_append]
    rw [find?_append_of_none _ hmap0]
    simp only [List.map_cons, List.map_nil]
    rw [List.find?_cons_of_pos _ hpg1]
  · rw [hgr1]
    show (if f ∈ projectUpsertFields then coalesce (obs2 f) (row1.fields f)
        else row1.fields f) = coalesce (obs2 f) (obs1 f)
    rw [if_pos hf, hrow1]
    show coalesce (obs2 f) (if f ∈ projectUpsertFields then obs1 f else none)
        = coalesce (obs2 f) (obs1 f)
    rw [if_pos hf]
  · intro h1
    rw [hgr1]
    show (if f ∈ projectUpsertFields then coalesce (obs2 f) (row1.fields f)
        else row1.fields f) ≠ none
    rw [if_pos hf, hrow1]
    show coalesce (obs2 f) (if f ∈ projectUpsertFields then obs1 f else none) ≠ none
    rw [if_pos hf]
    cases ho2 : obs2 f with
    | some v => simp [coalesce]
    | none => simpa [coalesce] using h1

/-- Witness for `upsert_project_coalesce` at a concrete two-run
observation of one project. -/
theorem upsert_project_coalesce_witness :
    ∃ row, (upsert_project (upsert_project ([] : List (ProjectRow Nat)) ("77")
        (fun f => if f = "title" then some 5 else none) 0) ("77")
        (fun _ => none) 1).find? (projectRowMatches ("77")) = some row ∧
      row.fields ("title") = coalesce none (some 5) ∧
      (some 5 ≠ none → row.fields ("title") ≠ none) :=
  upsert_project_coalesce [] ("77") (fun f => if f = "title" then some 5 else none)
    (fun _ => none) 0 1 rfl ("title") (by decide)

/-! ## C4: `insert_project_tags` (src/db.py 301-309, schema 98-104)

`project_tags` has `UNIQUE(project_id, tag_name)` and rows are written
with `INSERT OR IGNORE`, so a row is appended only when the (project,
stripped tag) pair is not already stored; otherwise the statement is a
no-op (not an error). -/

abbrev TagTable := List (Nat × String)

/-- One `INSERT OR IGNORE INTO project_tags` statement (tag already
stripped). -/
def insertTagRow (tbl : TagTable) (projectId : Nat) (tagName : String) : TagTable :=
  if (projectId, tagName) ∈ tbl then tbl else tbl ++ [(projectId, tagName)]

/-- `insert_project_tags` (src/db.py 301-309): insert each tag of the
list, stripped, with `INSERT OR IGNORE`. -/
def insert_project_tags (tbl : TagTable) (projectId : Nat) (tags : List String) : TagTable :=
  tags.foldl (fun t tag => insertTagRow t projectId tag.trim) tbl

theorem insertTagRow_mem (tbl : TagTable) (pid : Nat) (t : String) :
    (pid, t) ∈ insertTagRow tbl pid t := by
  unfold insertTagRow
  split
  · assumption
  · simp

theorem insertTagRow_already (tbl : TagTable) (pid : Nat) (t : String)
    (h : (pid, t) ∈ tbl) : insertTagRow tbl pid t = tbl := by
  unfold insertTagRow
  rw [if_pos h]

/-- Claim C4: inserting the same tag twice for the same project — within
one call or across two calls — leaves the table exactly as a single
insertion does, and when the pair was absent the resulting table stores
exactly one row for it.  The repeated insertion is a no-op, never an
error (the operation is total). -/
theorem insert_project_tags_idempotent (tbl : TagTable) (pid : Nat) (tag : String) :
    insert_project_tags (insert_project_tags tbl pid [tag]) pid [tag]
      = insert_project_tags tbl pid [tag] ∧
    insert_project_tags tbl pid [tag, tag] = insert_project_tags tbl pid [tag] ∧
    ((pid, tag.trim) ∉ tbl →
      ((insert_project_tags tbl pid [tag, tag]).filter
        (fun row => row = (pid, tag.trim))).length = 1) := by
  have hone : insert_project_tags tbl pid [tag] = insertTagRow tbl pid tag.trim := rfl
  have htwo : insert_project_tags tbl pid [tag, tag]
      = insertTagRow (insertTagRow tbl pid tag.trim) pid tag.trim := rfl
  have hsnd : insertTagRow (insertTagRow tbl pid tag.trim) pid tag.trim
      = insertTagRow tbl pid tag.trim :=
    insertTagRow_already _ _ _ (insertTagRow_mem tbl pid tag.trim)
  refine ⟨?_, ?_, ?_⟩
  · show insertTagRow (insertTagRow tbl pid tag.trim) pid tag.trim
      = insertTagRow tbl pid tag.trim
    exact hsnd
  · rw [htwo, hone, hsnd]
  · intro habs
    rw [htwo, hsnd]
    unfold insertTagRow
    rw [if_neg habs, List.filter_append]
    have h1 : tbl.filter (fun row => row = (pid, tag.trim)) = [] := by
      rw [List.filter_eq_nil_iff]
      intro a ha
      simp only [decide_eq_true_eq]
      intro hEq
      exact habs (hEq ▸ ha)
    rw [h1]
    simp

/-- Witness for the hypothesis of `insert_project_tags_idempotent`: from
an empty table, inserting the tag twice stores exactly one row. -/
theorem insert_project_tags_idempotent_witness :
    insert_project_tags (insert_project_tags ([] : TagTable) 1 [" design "]) 1 [" design "]
      = insert_project_tags ([] : TagTable) 1 [" design "] ∧
    insert_project_tags ([] : TagTable) 1 [" design ", " design "]
      = insert_project_tags ([] : TagTable) 1 [" design "] ∧
    ((insert_project_tags ([] : TagTable) 1 [" design ", " design "]).filter
      (fun row => row = (1, (" design " : String).trim))).length = 1 := by
  obtain ⟨a, b, c⟩ := insert_project_tags_idempotent ([] : TagTable) 1 (" design ")
  exact ⟨a, b, c (by simp)⟩

/-! ## C9: profile completeness score (src/scraper.py 656-674)

The scraped profile attributes as they sit in the `data` dict / `stats`
dict right before the score is computed.  Python truthiness of the
dict lookups: a missing key or an empty string is falsy, the 0/1 flags
are truthy iff 1, `stats.get("total_views", 0) > 0` is a plain
comparison. -/

structure ProfileData where
  display_name : Option String
  location : Option String
  bio_text : Option String
  has_banner : Bool
  has_website_link : Bool
  hire_status : Option String
  total_views : Nat
  has_services : Bool

/-- Python truthiness of an optional string (`data.get(key)`). -/
def truthy : Option String → Bool
  | none => false
  | some s => !s.isEmpty

/-- The completeness-score accumulation (src/scraper.py 657-674),
sequential `if`s then `min(score, 100)`. -/
def profile_completeness (p : ProfileData) : Nat :=
  let s0 := 0
  let s1 := if truthy p.display_name then s0 + 15 else s0
  let s2 := if truthy p.location then s1 + 10 else s1
  let s3 := if truthy p.bio_text then s2 + 20 else s2
  let s4 := if p.has_banner then s3 + 10 else s3
  let s5 := if p.has_website_link then s4 + 10 else s4
  let s6 := if truthy p.hire_status then s5 + 10 else s5
  let s7 := if p.total_views > 0 then s6 + 15 else s6
  let s8 := if p.has_services then s7 + 10 else s7
  min s8 100

theorem ite_add_shift (P : Prop) [Decidable P] (s k : Nat) :
    (if P then s + k else s) = s + (if P then k else 0) := by
  split_ifs <;> simp

/-- Claim C9: the completeness score equals the weighted sum over exactly
the present attributes (name 15, location 10, bio 20, banner 10, website
10, hire 10, nonzero views 15, services 10) capped at 100, hence lies in
[0, 100] for every profile (the lower bound is inherent to `Nat`). -/
theorem profile_completeness_spec (p : ProfileData) :
    profile_completeness p =
      min ((if truthy p.display_name then 15 else 0) +
           (if truthy p.location then 10 else 0) +
           (if truthy p.bio_text then 20 else 0) +
           (if p.has_banner then 10 else 0) +
           (if p.has_website_link then 10 else 0) +
           (if truthy p.hire_status then 10 else 0) +
           (if p.total_views > 0 then 15 else 0) +
           (if p.has_services then 10 else 0)) 100 ∧
    profile_completeness p ≤ 100 := by
  unfold profile_completeness
  constructor
  · simp only [ite_add_shift]
    congr 1
    omega
  · exact Nat.min_le_right _ _

/-! ## C10: module-classification text counter (src/scraper.py 441-467)

The classification loop tests each module's inner markup for image, then
video, then embed markers; there is no branch that increments
`text_count`, which stays at its initialisation value 0 and is emitted
as `data["text_count"]`. -/

structure ModuleCounts where
  image : Nat
  video : Nat
  text : Nat
  embed : Nat

/-- One iteration of the module loop (src/scraper.py 447-454). -/
def classifyModule (acc : ModuleCounts) (modHtml : List Char) : ModuleCounts :=
  if containsSubL ("<img".data) modHtml
      || containsSubL ("image".data) (modHtml.map pyLowerChar) then
    { acc with image := acc.image + 1 }
  else if containsSubL ("<video".data) modHtml
      || containsSubL ("video".data) (modHtml.map pyLowerChar) then
    { acc with video := acc.video + 1 }
  else if containsSubL ("<iframe".data) modHtml
      || containsSubL ("embed".data) (modHtml.map pyLowerChar) then
    { acc with embed := acc.embed + 1 }
  else acc

def classify_modules (mods : List (List Char)) : ModuleCounts :=
  mods.foldl classifyModule ⟨0, 0, 0, 0⟩

structure DetailCounts where
  module_count : Int
  image_count : Int
  video_count : Nat
  text_count : Nat
  embed_count : Nat

/-- The `data["module_count"] / ... / data["embed_count"]` assembly
(src/scraper.py 456-467). -/
def detailModuleData (mods : List (List Char)) (permalinkCount : Nat) : DetailCounts :=
  let c := classify_modules mods
  if permalinkCount > 0 then
    { module_count := permalinkCount,
      image_count := max (c.image : Int)
        ((permalinkCount : Int) - c.video - c.text - c.embed),
      video_count := c.video, text_count := c.text, embed_count := c.embed }
  else
    { module_count := ((c.image + c.video + c.text + c.embed : Nat) : Int),
      image_count := (c.image : Int),
      video_count := c.video, text_count := c.text, embed_count := c.embed }

theorem classifyModule_text (acc : ModuleCounts) (m : List Char) :
    (classifyModule acc m).text = acc.text := by
  unfold classifyModule
  split_ifs <;> rfl

theorem classify_modules_text_aux (mods : List (List Char)) (acc : ModuleCounts) :
    (mods.foldl classifyModule acc).text = acc.text := by
  induction mods generalizing acc with
  | nil => rfl
  | cons m rest ih => rw [List.foldl_cons, ih, classifyModule_text]

/-- Claim C10: for every project detail scrape the emitted `text_count`
is 0 regardless of the page's module content, and coalescing it into a
stored `projects` row therefore always stores 0. -/
theorem text_count_always_zero (mods : List (List Char)) (permalinkCount : Nat) :
    (detailModuleData mods permalinkCount).text_count = 0 ∧
    ∀ stored : Option Int,
      coalesce (some ((detailModuleData mods permalinkCount).text_count : Int)) stored
        = some 0 := by
  have hc : (classify_modules mods).text = 0 := classify_modules_text_aux mods ⟨0, 0, 0, 0⟩
  have h : (detailModuleData mods permalinkCount).text_count = 0 := by
    unfold detailModuleData
    split_ifs <;> exact hc
  refine ⟨h, ?_⟩
  intro stored
  rw [h]
  rfl

/-! ## C2 / C8: search-result collection (src/scraper.py 178-350, 889-906)

A listing card is abstracted to the observable inputs of
`_parse_search_card`: whether some Playwright call inside the card body
raises, the gallery link's href (if a link element exists), and the
field values the selector chains would produce.  The card loop of
`scrape_search_results` assigns `position += 1` to every card — parsed
or not — and appends only parsed records; `run_full_scrape` (step 6)
then inserts one `search_results` row per record whose project row was
resolved, and records `len(results)` as the snapshot's
`total_collected`. -/

def galleryPat : List Char := "/gallery/".data

/-- `_extract_behance_id` (src/scraper.py 48-51):
`re.search(r"/gallery/(\d+)/", url)` — leftmost position where the
pattern `/gallery/`, a maximal nonempty digit run, and `/` match. -/
def extractIdFrom : List Char → Option (List Char)
  | [] => none
  | c :: cs =>
    if isPrefixOfL galleryPat (c :: cs) then
      let after := (c :: cs).drop galleryPat.length
      let ds := after.takeWhile Char.isDigit
      if ds.isEmpty then extractIdFrom cs
      else
        match after.drop ds.length with
        | '/' :: _ => some ds
        | _ => extractIdFrom cs
    else extractIdFrom cs

structure Card where
  raises : Bool
  galleryHref : Option String
  title : String
  authorUsername : Option String
  authorName : Option String
  appreciations : Nat
  views : Nat
  isPromoted : Bool
  isFeatured : Bool
  coverUrl : Option String
deriving DecidableEq

structure CardRec where
  position : Nat
  behanceId : String
  title : String
  authorUsername : Option String
  authorName : Option String
  appreciations : Nat
  views : Nat
  isPromoted : Bool
  isFeatured : Bool
  coverUrl : Option String
deriving DecidableEq

/-- `_parse_search_card` (src/scraper.py 240-350).  The whole body is
inside `try/except Exception`, which logs and returns `None`; a missing
gallery link or an unextractable id also return `None`. -/
def parse_search_card (card : Card) (position : Nat) : Option CardRec :=
  if card.raises then none
  else
    match card.galleryHref with
    | none => none
    | some href =>
      match extractIdFrom href.data with
      | none => none
      | some ds =>
        some { position := position,
               behanceId := String.mk ds,
               title := card.title,
               authorUsername := card.authorUsername,
               authorName := card.authorName,
               appreciations := card.appreciations,
               views := card.views,
               isPromoted := card.isPromoted,
               isFeatured := card.isFeatured,
               coverUrl := card.coverUrl }

/-- The per-page card loop (src/scraper.py 222-229): every card consumes
a position; only parsed cards are appended. -/
def pageCards (maxProjects : Nat) : List Card → Nat → List CardRec → Nat × List CardRec
  | [], position, results => (position, results)
  | card :: rest, position, results =>
    if position + 1 > maxProjects then (position + 1, results)
    else
      match parse_search_card card (position + 1) with
      | some r => pageCards maxProjects rest (position + 1) (results ++ [r])
      | none => pageCards maxProjects rest (position + 1) results

/-- The page loop of `scrape_search_results` (src/scraper.py 190-237),
abstracted over the successfully fetched listing pages; the
`if position >= max_projects: break` check follows each page. -/
def pagesLoop (maxProjects : Nat) : List (List Card) → Nat → List CardRec → List CardRec
  | [], _, results => results
  | cards :: rest, position, results =>
    let pr := pageCards maxProjects cards position results
    if pr.1 ≥ maxProjects then pr.2
    else pagesLoop maxProjects rest pr.1 pr.2

/-- `scrape_search_results` collection result for one query. -/
def scrape_search_results (maxProjects : Nat) (pages : List (List Card)) : List CardRec :=
  pagesLoop maxProjects pages 0 []

structure SRRow where
  snapshotId : Nat
  projectId : Nat
  position : Nat
  appreciations : Nat
  views : Nat

/-- Step 6 of `run_full_scrape` (src/scraper.py 891-906): one
`search_results` row per collected record whose project row exists;
records without a resolved project row are skipped (`continue`). -/
def saveResults (snapshotId : Nat) (projectDbIds : String → Option Nat) :
    List CardRec → List SRRow
  | [] => []
  | r :: rest =>
    match projectDbIds r.behanceId with
    | none => saveResults snapshotId projectDbIds rest
    | some pidDb =>
      { snapshotId := snapshotId, projectId := pidDb, position := r.position,
        appreciations := r.appreciations, views := r.views }
        :: saveResults snapshotId projectDbIds rest

/-- A card on which `_parse_search_card` yields a record. -/
def cardParsesOk (c : Card) : Bool :=
  !c.raises &&
    (match c.galleryHref with
     | some h => (extractIdFrom h.data).isSome
     | none => false)

def cexCardA : Card :=
  { raises := false,
    galleryHref := some ("https://www.behance.net/gallery/111/a"),
    title := "A", authorUsername := some ("u1"), authorName := some ("U1"),
    appreciations := 1, views := 2, isPromoted := false, isFeatured := false,
    coverUrl := none }

def cexCardBad : Card := { cexCardA with raises := true }

def cexCardB : Card :=
  { cexCardA with galleryHref := some ("https://www.behance.net/gallery/222/b"),
                  title := "B" }

def cexPdb : String → Option Nat :=
  fun s => if s = "111" then some 1 else if s = "222" then some 2 else none


theorem pageCards_nil (maxP pos : Nat) (res : List CardRec) :
    pageCards maxP [] pos res = (pos, res) := rfl

theorem pageCards_cons (maxP : Nat) (card : Card) (rest : List Card) (pos : Nat)
    (res : List CardRec) :
    pageCards maxP (card :: rest) pos res =
      if pos + 1 > maxP then (pos + 1, res)
      else match parse_search_card card (pos + 1) with
        | some r => pageCards maxP rest (pos + 1) (res ++ [r])
        | none => pageCards maxP rest (pos + 1) res := rfl

theorem pagesLoop_nil (maxP pos : Nat) (res : List CardRec) :
    pagesLoop maxP [] pos res = res := rfl

theorem pagesLoop_cons (maxP : Nat) (cards : List Card) (rest : List (List Card))
    (pos : Nat) (res : List CardRec) :
    pagesLoop maxP (cards :: rest) pos res =
      if (pageCards maxP cards pos res).1 ≥ maxP then (pageCards maxP cards pos res).2
      else pagesLoop maxP rest (pageCards maxP cards pos res).1
        (pageCards maxP cards pos res).2 := rfl

theorem saveResults_cons (snap : Nat) (pdb : String → Option Nat) (r : CardRec)
    (rest : List CardRec) :
    saveResults snap pdb (r :: rest) =
      match pdb r.behanceId with
      | none => saveResults snap pdb rest
      | some pidDb =>
        { snapshotId := snap, projectId := pidDb, position := r.position,
          appreciations := r.appreciations, views := r.views }
          :: saveResults snap pdb rest := rfl

theorem parse_search_card_position {c : Card} {p : Nat} {r : CardRec}
    (h : parse_search_card c p = some r) : r.position = p := by
  unfold parse_search_card at h
  split at h
  · cases h
  · split at h
    · cases h
    · split at h
      · cases h
      · cases h
        rfl

theorem parse_search_card_of_ok {c : Card} (h : cardParsesOk c = true) (p : Nat) :
    ∃ r, parse_search_card c p = some r ∧ r.position = p := by
  cases hraises : c.raises with
  | true => simp [cardParsesOk, hraises] at h
  | false =>
    rcases hhref : c.galleryHref with _ | href
    · simp [cardParsesOk, hraises, hhref] at h
    · rcases hid : extractIdFrom href.data with _ | ds
      · simp [cardParsesOk, hraises, hhref, hid] at h
      · exact ⟨{ position := p, behanceId := String.mk ds, title := c.title,
                 authorUsername := c.authorUsername, authorName := c.authorName,
                 appreciations := c.appreciations, views := c.views,
                 isPromoted := c.isPromoted, isFeatured := c.isFeatured,
                 coverUrl := c.coverUrl },
               by simp [parse_search_card, hraises, hhref, hid], rfl⟩

theorem pageCards_invariant (maxP : Nat) (cards : List Card) (pos : Nat)
    (res : List CardRec)
    (hp : List.Pairwise (· < ·) (res.map CardRec.position))
    (hb : ∀ r ∈ res, r.position ≤ pos) :
    List.Pairwise (· < ·) ((pageCards maxP cards pos res).2.map CardRec.position) ∧
    (∀ r ∈ (pageCards maxP cards pos res).2,
      r.position ≤ (pageCards maxP cards pos res).1) ∧
    pos ≤ (pageCards maxP cards pos res).1 := by
  induction cards generalizing pos res with
  | nil =>
    rw [pageCards_nil]
    exact ⟨hp, fun r hr => hb r hr, Nat.le_refl _⟩
  | cons card rest ih =>
    rw [pageCards_cons]
    split
    · exact ⟨hp, fun r hr => Nat.le_succ_of_le (hb r hr), Nat.le_succ _⟩
    · rcases hparse : parse_search_card card (pos + 1) with _ | r
      · have h1 := ih (pos + 1) res hp (fun r hr => Nat.le_succ_of_le (hb r hr))
        exact ⟨h1.1, h1.2.1, Nat.le_of_succ_le h1.2.2⟩
      · have hrpos : r.position = pos + 1 := parse_search_card_position hparse
        have hp' : List.Pairwise (· < ·) ((res ++ [r]).map CardRec.position) := by
          rw [List.map_append]
          rw [List.pairwise_append]
          refine ⟨hp, List.pairwise_singleton _ _, ?_⟩
          intro a ha b hbmem
          simp only [List.map_cons, List.map_nil, List.mem_singleton] at hbmem
          obtain ⟨q, hq, hqa⟩ := List.mem_map.mp ha
          rw [hbmem, hrpos, ← hqa]
          exact Nat.lt_succ_of_le (hb q hq)
        have hb' : ∀ x ∈ res ++ [r], x.position ≤ pos + 1 := by
          intro x hx
          rcases List.mem_append.mp hx with hx | hx
          · exact Nat.le_succ_of_le (hb x hx)
          · rw [List.mem_singleton.mp hx, hrpos]
        have h1 := ih (pos + 1) (res ++ [r]) hp' hb'
        exact ⟨h1.1, h1.2.1, Nat.le_of_succ_le h1.2.2⟩

theorem pagesLoop_pairwise (maxP : Nat) (pages : List (List Card)) (pos : Nat)
    (res : List CardRec)
    (hp : List.Pairwise (· < ·) (res.map CardRec.position))
    (hb : ∀ r ∈ res, r.position ≤ pos) :
    List.Pairwise (· < ·) ((pagesLoop maxP pages pos res).map CardRec.position) := by
  induction pages generalizing pos res with
  | nil =>
    rw [pagesLoop_nil]
    exact hp
  | cons cards rest ih =>
    have h1 := pageCards_invariant maxP cards pos res hp hb
    rw [pagesLoop_cons]
    split
    · exact h1.1
    · exact ih _ _ h1.1 h1.2.1

theorem saveResults_positions_sublist (snap : Nat) (pdb : String → Option Nat)
    (rs : List CardRec) :
    ((saveResults snap pdb rs).map SRRow.position).Sublist (rs.map CardRec.position) := by
  induction rs with
  | nil => exact List.Sublist.refl _
  | cons r rest ih =>
    rw [saveResults_cons]
    rcases pdb r.behanceId with _ | pidDb
    · exact List.Sublist.cons _ ih
    · exact List.Sublist.cons₂ _ ih

theorem saveResults_positions_all (snap : Nat) (pdb : String → Option Nat)
    (rs : List CardRec) (h : ∀ r ∈ rs, (pdb r.behanceId).isSome) :
    (saveResults snap pdb rs).map SRRow.position = rs.map CardRec.position := by
  induction rs with
  | nil => rfl
  | cons r rest ih =>
    have hr := h r (by simp)
    rw [saveResults_cons]
    rcases hp : pdb r.behanceId with _ | pidDb
    · rw [hp] at hr
      cases hr
    · simp only [List.map_cons]
      rw [ih (fun x hx => h x (by simp [hx]))]

theorem pageCards_all_ok (maxP : Nat) (cards : List Card) (pos : Nat)
    (res : List CardRec) (hok : ∀ c ∈ cards, cardParsesOk c = true)
    (hmap : res.map CardRec.position = List.range' 1 pos)
    (hlen : res.length = pos) (hle : pos ≤ maxP) :
    (pageCards maxP cards pos res).2.map CardRec.position
      = List.range' 1 (pageCards maxP cards pos res).2.length ∧
    (((pageCards maxP cards pos res).1 ≤ maxP ∧
      (pageCards maxP cards pos res).1 = (pageCards maxP cards pos res).2.length) ∨
     ((pageCards maxP cards pos res).1 = maxP + 1 ∧
      (pageCards maxP cards pos res).2.length = maxP)) := by
  induction cards generalizing pos res with
  | nil =>
    rw [pageCards_nil]
    refine ⟨?_, Or.inl ⟨hle, hlen.symm⟩⟩
    rw [hmap, hlen]
  | cons card rest ih =>
    rw [pageCards_cons]
    split
    · rename_i hgt
      refine ⟨?_, Or.inr ⟨?_, ?_⟩⟩
      · rw [hmap, hlen]
      · show pos + 1 = maxP + 1
        omega
      · show res.length = maxP
        omega
    · rename_i hle'
      obtain ⟨r, hparse, hrpos⟩ := parse_search_card_of_ok (hok card (by simp)) (pos + 1)
      rw [hparse]
      have hmap' : (res ++ [r]).map CardRec.position = List.range' 1 (pos + 1) := by
        rw [List.map_append, hmap, List.range'_1_concat]
        simp [hrpos]
        omega
      have hlen' : (res ++ [r]).length = pos + 1 := by
        simp [hlen]
      exact ih (pos + 1) (res ++ [r]) (fun c hc => hok c (by simp [hc])) hmap' hlen'
        (by omega)

theorem pagesLoop_all_ok (maxP : Nat) (pages : List (List Card)) (pos : Nat)
    (res : List CardRec)
    (hok : ∀ cards ∈ pages, ∀ c ∈ cards, cardParsesOk c = true)
    (hmap : res.map CardRec.position = List.range' 1 pos)
    (hlen : res.length = pos) (hle : pos ≤ maxP) :
    (pagesLoop maxP pages pos res).map CardRec.position
      = List.range' 1 (pagesLoop maxP pages pos res).length := by
  induction pages generalizing pos res with
  | nil =>
    rw [pagesLoop_nil, hmap, hlen]
  | cons cards rest ih =>
    have hokc : ∀ c ∈ cards, cardParsesOk c = true := hok cards (by simp)
    have h1 := pageCards_all_ok maxP cards pos res hokc hmap hlen hle
    rw [pagesLoop_cons]
    split
    · exact h1.1
    · rename_i hlt
      rcases h1.2 with ⟨hle2, hlen2⟩ | ⟨heq, _⟩
      · exact ih _ _ (fun cs hcs => hok cs (List.mem_cons_of_mem _ hcs))
          (by rw [hlen2]; exact h1.1) hlen2.symm hle2
      · omega

/-- Claim C2 (amended): positions of the stored `search_results` rows of
one snapshot are always strictly increasing (hence pairwise distinct);
and **when** every card of every fetched page parses successfully and
every collected record's project row is resolved at save time, the saved
positions are exactly the contiguous sequence `1..N` with `N` equal to
the snapshot's stored `total_collected = len(results)`.  (The
unconditional contiguity stated by the claim fails: a dropped card still
consumes a position — see the counterexample.) -/
theorem search_positions_amended (maxP snap : Nat) (pages : List (List Card))
    (pdb : String → Option Nat) :
    List.Pairwise (· < ·)
      ((saveResults snap pdb (scrape_search_results maxP pages)).map SRRow.position) ∧
    ((∀ cards ∈ pages, ∀ c ∈ cards, cardParsesOk c = true) →
     (∀ r ∈ scrape_search_results maxP pages, (pdb r.behanceId).isSome) →
     (saveResults snap pdb (scrape_search_results maxP pages)).map SRRow.position
       = List.range' 1 (scrape_search_results maxP pages).length) := by
  constructor
  · exact List.Pairwise.sublist
      (saveResults_positions_sublist snap pdb (scrape_search_results maxP pages))
      (pagesLoop_pairwise maxP pages 0 [] (by simp) (by simp))
  · intro hok hsome
    rw [saveResults_positions_all snap pdb _ hsome]
    exact pagesLoop_all_ok maxP pages 0 [] hok (by simp) rfl (Nat.zero_le _)

/-- Claim C2 (counterexample): a page of three cards whose middle card
raises while being parsed yields collected positions `[1, 3]` and a
stored total of 2, so the saved positions are not a permutation of
`1..total` — the claim's contiguity fails exactly in the
dropped-card case it quantifies over. -/
theorem search_positions_not_contiguous_on_bad_card :
    ((saveResults 1 cexPdb (scrape_search_results 100 [[cexCardA, cexCardBad, cexCardB]])).map
        SRRow.position = [1, 3]) ∧
    (scrape_search_results 100 [[cexCardA, cexCardBad, cexCardB]]).length = 2 ∧
    ¬ ((saveResults 1 cexPdb (scrape_search_results 100 [[cexCardA, cexCardBad, cexCardB]])).map
        SRRow.position).Perm
      (List.range' 1 (scrape_search_results 100 [[cexCardA, cexCardBad, cexCardB]]).length) := by
  refine ⟨by decide, by decide, ?_⟩
  intro hperm
  have h3 := hperm.mem_iff (a := 3)
  revert h3
  decide

/-- Witness for the hypotheses of `search_positions_amended`: a concrete
page of two parsing cards with both project rows resolved. -/
theorem search_positions_amended_witness :
    List.Pairwise (· < ·)
      ((saveResults 1 cexPdb (scrape_search_results 100 [[cexCardA, cexCardB]])).map
        SRRow.position) ∧
    (saveResults 1 cexPdb (scrape_search_results 100 [[cexCardA, cexCardB]])).map
        SRRow.position
      = List.range' 1 (scrape_search_results 100 [[cexCardA, cexCardB]]).length := by
  obtain ⟨h1, h2⟩ := search_positions_amended 100 1 [[cexCardA, cexCardB]] cexPdb
  exact ⟨h1, h2 (by decide) (by decide)⟩

theorem pageCards_enumFrom (maxP : Nat) (cards : List Card) (pos : Nat)
    (res : List CardRec) (h : pos + cards.length ≤ maxP) :
    pageCards maxP cards pos res =
      (pos + cards.length,
       res ++ (cards.enumFrom pos).filterMap
         (fun q => parse_search_card q.2 (q.1 + 1))) := by
  induction cards generalizing pos res with
  | nil => simp [pageCards_nil]
  | cons card rest ih =>
    rw [pageCards_cons]
    have hnb : ¬ pos + 1 > maxP := by
      simp only [List.length_cons] at h
      omega
    rw [if_neg hnb]
    rcases hparse : parse_search_card card (pos + 1) with _ | r
    · show pageCards maxP rest (pos + 1) res = _
      rw [ih (pos + 1) res (by simp only [List.length_cons] at h; omega)]
      simp only [List.enumFrom_cons, List.filterMap_cons, hparse]
      congr 1
      · simp only [List.length_cons]
        omega
    · show pageCards maxP rest (pos + 1) (res ++ [r]) = _
      rw [ih (pos + 1) (res ++ [r]) (by simp only [List.length_cons] at h; omega)]
      simp only [List.enumFrom_cons, List.filterMap_cons, hparse]
      congr 1
      · simp only [List.length_cons]
        omega
      · simp [List.append_assoc]

/-- Claim C8: any exception while parsing one listing card is caught
inside `_parse_search_card`, which returns no record; the page loop is a
total function whose output is exactly the per-card filter-map over
**all** cards of the page, so a bad card is dropped and every remaining
card is still parsed — no exception reaches `scrape_search_results`. -/
theorem card_error_isolation (maxP : Nat) (cards : List Card)
    (h : cards.length ≤ maxP) :
    (∀ (c : Card) (p : Nat), c.raises = true → parse_search_card c p = none) ∧
    scrape_search_results maxP [cards]
      = cards.enum.filterMap (fun q => parse_search_card q.2 (q.1 + 1)) := by
  constructor
  · intro c p hc
    unfold parse_search_card
    rw [hc]
    rfl
  · unfold scrape_search_results
    rw [pagesLoop_cons]
    rw [pageCards_enumFrom maxP cards 0 [] (by omega)]
    split
    · simp [List.enum]
    · rw [pagesLoop_nil]
      simp [List.enum]

/-- Witness for the hypothesis of `card_error_isolation`, at a concrete
three-card page whose middle card raises. -/
theorem card_error_isolation_witness :
    scrape_search_results 10 [[cexCardA, cexCardBad, cexCardB]]
      = ([cexCardA, cexCardBad, cexCardB].enum).filterMap
          (fun q => parse_search_card q.2 (q.1 + 1)) :=
  (card_error_isolation 10 [cexCardA, cexCardBad, cexCardB] (by decide)).2

/-! ## C7: navigation wait-condition handling

`scrape_project_details` (src/scraper.py 361-365) and
`scrape_author_profile` (546-550) wrap `page.goto(..., "networkidle")`
in `try/except PwTimeout` and retry once with `"domcontentloaded"`.
`scrape_search_results` (192, 203) and `scrape_my_projects` (697) call
`page.goto(..., "networkidle")` with **no** try/except, and
`run_full_scrape` does not catch around step 1 (queries) or step 2 (my
projects), while its step-3/step-4 loops catch `Exception` per item.
The environment records, per url and wait condition, whether the
navigation completes before the timeout. -/

inductive WaitUntil
  | networkidle
  | domcontentloaded
deriving DecidableEq

/-- `true` = the wait condition is reached before the timeout;
`false` = `playwright TimeoutError`. -/
def NavEnv := String → WaitUntil → Bool

/-- `await page.goto(url, wait_until=w, timeout=...)`. -/
def pyGoto (env : NavEnv) (url : String) (w : WaitUntil) : Except Unit Unit :=
  if env url w then .ok () else .error ()

/-- Navigation prologue of `scrape_project_details` (src/scraper.py
361-365): try networkidle, on `PwTimeout` retry once domcontentloaded;
a second timeout propagates. -/
def detailNav (env : NavEnv) (url : String) : Except Unit Unit :=
  match pyGoto env url .networkidle with
  | .ok _ => .ok ()
  | .error _ => pyGoto env url .domcontentloaded

/-- Navigation prologue of `scrape_author_profile` (src/scraper.py
546-550): identical discipline. -/
def profileNav (env : NavEnv) (url : String) : Except Unit Unit :=
  match pyGoto env url .networkidle with
  | .ok _ => .ok ()
  | .error _ => pyGoto env url .domcontentloaded

/-- A navigation of `scrape_search_results` (src/scraper.py 192, 203):
plain goto at networkidle, no try/except. -/
def searchNav (env : NavEnv) (url : String) : Except Unit Unit :=
  pyGoto env url .networkidle

/-- The navigation of `scrape_my_projects` (src/scraper.py 697): plain
goto at networkidle, no try/except. -/
def myProjectsNav (env : NavEnv) (url : String) : Except Unit Unit :=
  pyGoto env url .networkidle

/-- Step 3 of `run_full_scrape` (847-851) around one project detail:
`try: ... except Exception: log` — a propagated timeout skips the item. -/
def detailStep (env : NavEnv) (url : String) : Option Unit :=
  match detailNav env url with
  | .ok _ => some ()
  | .error _ => none

/-- Step 1 of `run_full_scrape` (794-813): the query loop has no
try/except, so the first propagated navigation error aborts the run. -/
def searchPhase (env : NavEnv) (urls : List String) : Except Unit Unit :=
  match urls with
  | [] => .ok ()
  | url :: rest =>
    match searchNav env url with
    | .error e => .error e
    | .ok _ => searchPhase env rest

/-- Claim C7 (counterexample): in an environment where networkidle times
out on every page but domcontentloaded succeeds, the project-detail
navigation is retried and succeeds, while the search-results navigation
— also a navigation performed by the pipeline — is not retried: it
propagates the timeout and aborts the whole query phase.  So it is false
that *every* navigation performed by the pipeline retries once at the
weaker condition. -/
theorem search_navigation_no_retry :
    detailNav (fun _ w => w == WaitUntil.domcontentloaded) ("p") = .ok () ∧
    searchNav (fun _ w => w == WaitUntil.domcontentloaded) ("q") = .error () ∧
    searchPhase (fun _ w => w == WaitUntil.domcontentloaded) [("q")] = .error () := by
  refine ⟨rfl, rfl, rfl⟩

/-- Claim C7 (amended): the retry-once-at-domcontentloaded discipline
holds for the project-detail and author-profile navigations — networkidle
success means no second attempt, a networkidle timeout means exactly one
domcontentloaded attempt whose own timeout is the only error surfaced,
and the per-item handler in `run_full_scrape` turns that error into a
skip of the one item; the search-results (and own-profile) navigations
have no retry: they are a single networkidle attempt whose timeout
propagates, aborting the query phase. -/
theorem navigation_retry_amended (env : NavEnv) (url : String) (rest : List String) :
    (env url WaitUntil.networkidle = true →
      detailNav env url = .ok () ∧ profileNav env url = .ok ()) ∧
    (env url WaitUntil.networkidle = false →
      detailNav env url = pyGoto env url WaitUntil.domcontentloaded ∧
      profileNav env url = pyGoto env url WaitUntil.domcontentloaded ∧
      detailStep env url
        = (if env url WaitUntil.domcontentloaded then some () else none)) ∧
    searchNav env url = pyGoto env url WaitUntil.networkidle ∧
    myProjectsNav env url = pyGoto env url WaitUntil.networkidle ∧
    (env url WaitUntil.networkidle = false →
      searchPhase env (url :: rest) = .error ()) := by
  refine ⟨?_, ?_, rfl, rfl, ?_⟩
  · intro h
    constructor <;> simp [detailNav, profileNav, pyGoto, h]
  · intro h
    refine ⟨?_, ?_, ?_⟩
    · simp [detailNav, pyGoto, h]
    · simp [profileNav, pyGoto, h]
    · rcases hd : env url WaitUntil.domcontentloaded with _ | _ <;>
        simp [detailStep, detailNav, pyGoto, h, hd]
  · intro h
    simp [searchPhase, searchNav, pyGoto, h]

/-- Witness for `navigation_retry_amended` at a concrete environment
where networkidle always times out and domcontentloaded succeeds. -/
theorem navigation_retry_amended_witness :
    (detailNav (fun _ w => w == WaitUntil.domcontentloaded) ("u")
        = pyGoto (fun _ w => w == WaitUntil.domcontentloaded) ("u")
            WaitUntil.domcontentloaded) ∧
    detailStep (fun _ w => w == WaitUntil.domcontentloaded) ("u") = some () ∧
    searchPhase (fun _ w => w == WaitUntil.domcontentloaded) [("u")] = .error () := by
  obtain ⟨h1, h2, h3, h4, h5⟩ :=
    navigation_retry_amended (fun _ w => w == WaitUntil.domcontentloaded) ("u") []
  obtain ⟨ha, hb, hc⟩ := h2 (by decide)
  exact ⟨ha, by rw [hc]; decide, h5 (by decide)⟩

/-! ## C6: one author row / one author-snapshot row per run

`run_full_scrape` (src/scraper.py 794-813) builds `all_authors`, a dict
keyed by username filled with insert-if-absent while walking every
query's results; step 2 (833-834) adds the operator's own username if
absent.  Step 4 (859-874) then, per `all_authors` entry, upserts one
`authors` row (unique on username, src/db.py 178-231) and inserts
exactly one `author_snapshots` row — the loop over `all_search_data`
breaks after the first snapshot id (src/scraper.py 870-872).
`upsert_author_snapshot` (src/db.py 234-248) is a plain INSERT. -/

/-- Accumulate one query's results into `all_authors`
(src/scraper.py 807-809): insert-if-absent keyed by username. -/
def addResultAuthors (acc : List (String × Option String)) (results : List CardRec) :
    List (String × Option String) :=
  results.foldl (fun acc r =>
    match r.authorUsername with
    | none => acc
    | some u => if acc.any (fun p => p.1 == u) then acc else acc ++ [(u, r.authorName)])
    acc

def buildAllAuthors (queryResults : List (List CardRec)) : List (String × Option String) :=
  queryResults.foldl addResultAuthors []

/-- Step 2 (src/scraper.py 833-834): `if my_username not in all_authors`. -/
def addMyUsername (acc : List (String × Option String)) (myU : String) :
    List (String × Option String) :=
  if acc.any (fun p => p.1 == myU) then acc else acc ++ [(myU, none)]

structure AuthorsDB where
  authors : List (Nat × String)
  snapshots : List (Nat × Nat)

/-- `upsert_author` (src/db.py 178-231), reduced to the identity-relevant
columns: select by username; update (keeping the row and its id) when
found, insert a fresh row with the next id otherwise. -/
def upsert_author (authors : List (Nat × String)) (username : String) :
    List (Nat × String) × Nat :=
  match authors.find? (fun p => p.2 == username) with
  | some p => (authors, p.1)
  | none => (authors ++ [(authors.length + 1, username)], authors.length + 1)

/-- Step 4 of `run_full_scrape` (src/scraper.py 859-874): per
`all_authors` entry, one author upsert and — via the `break` after the
first element of `all_search_data` — exactly one `author_snapshots`
insert, using the first query's snapshot id. -/
def authorPhase (db : AuthorsDB) (allAuthors : List String) (snapshotIds : List Nat) :
    AuthorsDB :=
  allAuthors.foldl (fun db u =>
    let pr := upsert_author db.authors u
    { authors := pr.1,
      snapshots :=
        match snapshotIds with
        | [] => db.snapshots
        | sid :: _ => db.snapshots ++ [(pr.2, sid)] }) db

theorem addResultAuthors_keys_mem (acc : List (String × Option String))
    (results : List CardRec) (u : String) :
    (u ∈ acc.map Prod.fst ∨ ∃ r ∈ results, r.authorUsername = some u) →
    u ∈ (addResultAuthors acc results).map Prod.fst := by
  induction results generalizing acc with
  | nil =>
    intro h
    rcases h with h | ⟨r, hr, _⟩
    · exact h
    · cases hr
  | cons r rest ih =>
    intro h
    show u ∈ (rest.foldl _ (match r.authorUsername with
      | none => acc
      | some v => if acc.any (fun p => p.1 == v) then acc
                  else acc ++ [(v, r.authorName)])).map Prod.fst
    rcases hru : r.authorUsername with _ | v
    · apply ih
      rcases h with h | ⟨q, hq, hqu⟩
      · exact Or.inl h
      · rcases List.mem_cons.mp hq with rfl | hq
        · rw [hru] at hqu
          cases hqu
        · exact Or.inr ⟨q, hq, hqu⟩
    · apply ih
      show u ∈ List.map Prod.fst (if acc.any (fun p => p.1 == v) then acc
        else acc ++ [(v, r.authorName)]) ∨ ∃ q ∈ rest, q.authorUsername = some u
      by_cases hin : acc.any (fun p => p.1 == v)
      · rw [if_pos hin]
        rcases h with h | ⟨q, hq, hqu⟩
        · exact Or.inl h
        · rcases List.mem_cons.mp hq with rfl | hq
          · rw [hru] at hqu
            cases hqu
            left
            obtain ⟨p, hp, hpv⟩ := List.any_eq_true.mp hin
            rw [beq_iff_eq] at hpv
            rw [← hpv]
            exact List.mem_map_of_mem Prod.fst hp
          · exact Or.inr ⟨q, hq, hqu⟩
      · rw [if_neg hin]
        rcases h with h | ⟨q, hq, hqu⟩
        · left
          rw [List.map_append]
          exact List.mem_append_left _ h
        · rcases List.mem_cons.mp hq with rfl | hq
          · rw [hru] at hqu
            cases hqu
            left
            rw [List.map_append]
            exact List.mem_append_right _ (by simp)
          · exact Or.inr ⟨q, hq, hqu⟩

theorem addResultAuthors_keys_nodup (acc : List (String × Option String))
    (results : List CardRec) (h : (acc.map Prod.fst).Nodup) :
    ((addResultAuthors acc results).map Prod.fst).Nodup := by
  induction results generalizing acc with
  | nil => exact h
  | cons r rest ih =>
    show ((rest.foldl _ (match r.authorUsername with
      | none => acc
      | some v => if acc.any (fun p => p.1 == v) then acc
                  else acc ++ [(v, r.authorName)])).map Prod.fst).Nodup
    rcases r.authorUsername with _ | v
    · exact ih acc h
    · show ((addResultAuthors (if acc.any (fun p => p.1 == v) then acc
        else acc ++ [(v, r.authorName)]) rest).map Prod.fst).Nodup
      by_cases hin : acc.any (fun p => p.1 == v)
      · rw [if_pos hin]
        exact ih acc h
      · rw [if_neg hin]
        apply ih
        rw [List.map_append]
        simp only [List.map_cons, List.map_nil]
        rw [List.nodup_append]
        refine ⟨h, List.nodup_singleton _, ?_⟩
        intro a ha hav
        rw [List.mem_singleton] at hav
        apply hin
        rw [List.any_eq_true]
        obtain ⟨p, hp, hpa⟩ := List.mem_map.mp ha
        refine ⟨p, hp, ?_⟩
        rw [beq_iff_eq, hpa]
        exact hav

theorem addMyUsername_keys_nodup (acc : List (String × Option String)) (myU : String)
    (h : (acc.map Prod.fst).Nodup) :
    ((addMyUsername acc myU).map Prod.fst).Nodup := by
  unfold addMyUsername
  split
  · exact h
  · rename_i hin
    rw [List.map_append]
    simp only [List.map_cons, List.map_nil]
    rw [List.nodup_append]
    refine ⟨h, List.nodup_singleton _, ?_⟩
    intro a ha hav
    rw [List.mem_singleton] at hav
    apply hin
    rw [List.any_eq_true]
    obtain ⟨p, hp, hpa⟩ := List.mem_map.mp ha
    refine ⟨p, hp, ?_⟩
    rw [beq_iff_eq, hpa]
    exact hav

theorem addMyUsername_keys_mem (acc : List (String × Option String)) (myU : String)
    (u : String) (h : u ∈ acc.map Prod.fst) :
    u ∈ (addMyUsername acc myU).map Prod.fst := by
  unfold addMyUsername
  split
  · exact h
  · rw [List.map_append]
    exact List.mem_append_left _ h

theorem foldl_addResultAuthors_mem (qs : List (List CardRec))
    (acc : List (String × Option String)) (u : String)
    (h : u ∈ acc.map Prod.fst ∨ ∃ results ∈ qs, ∃ r ∈ results, r.authorUsername = some u) :
    u ∈ (qs.foldl addResultAuthors acc).map Prod.fst := by
  induction qs generalizing acc with
  | nil =>
    rcases h with h | ⟨_, h, _⟩
    · exact h
    · cases h
  | cons q rest ih =>
    show u ∈ (rest.foldl addResultAuthors (addResultAuthors acc q)).map Prod.fst
    apply ih
    rcases h with h | ⟨res, hres, hr⟩
    · exact Or.inl (addResultAuthors_keys_mem acc q u (Or.inl h))
    · rcases List.mem_cons.mp hres with hq | hres'
      · exact Or.inl (addResultAuthors_keys_mem acc q u (Or.inr (hq ▸ hr)))
      · exact Or.inr ⟨res, hres', hr⟩

theorem foldl_addResultAuthors_nodup (qs : List (List CardRec))
    (acc : List (String × Option String)) (h : (acc.map Prod.fst).Nodup) :
    ((qs.foldl addResultAuthors acc).map Prod.fst).Nodup := by
  induction qs generalizing acc with
  | nil => exact h
  | cons q rest ih =>
    show ((rest.foldl addResultAuthors (addResultAuthors acc q)).map Prod.fst).Nodup
    exact ih _ (addResultAuthors_keys_nodup acc q h)

theorem buildAllAuthors_keys_mem (queryResults : List (List CardRec)) (u : String)
    (h : ∃ results ∈ queryResults, ∃ r ∈ results, r.authorUsername = some u) :
    u ∈ (buildAllAuthors queryResults).map Prod.fst :=
  foldl_addResultAuthors_mem queryResults [] u (Or.inr h)

theorem buildAllAuthors_keys_nodup (queryResults : List (List CardRec)) :
    ((buildAllAuthors queryResults).map Prod.fst).Nodup :=
  foldl_addResultAuthors_nodup queryResults [] (by simp)

theorem mem_enumFrom_facts {α : Type} {q : Nat × α} {n : Nat} {L : List α}
    (h : q ∈ List.enumFrom n L) : n ≤ q.1 ∧ q.2 ∈ L := by
  induction L generalizing n with
  | nil => cases h
  | cons a rest ih =>
    rw [List.enumFrom_cons] at h
    rcases List.mem_cons.mp h with hq | hq
    · rw [hq]
      exact ⟨Nat.le_refl _, by simp⟩
    · obtain ⟨h1, h2⟩ := ih hq
      exact ⟨by omega, by simp [h2]⟩

/-- From an empty store and a duplicate-free username list, the author
phase appends one `authors` row per username with ids `|A|+1, |A|+2, …`
and one `author_snapshots` row per username carrying the first snapshot
id. -/
theorem authorPhase_closed (L : List String) (A : List (Nat × String))
    (S : List (Nat × Nat)) (sid : Nat) (rest : List Nat)
    (hA : ∀ u ∈ L, ∀ p ∈ A, (p.2 == u) = false) (hnd : L.Nodup) :
    authorPhase ⟨A, S⟩ L (sid :: rest) =
      ⟨A ++ (L.enumFrom A.length).map (fun q => (q.1 + 1, q.2)),
       S ++ (L.enumFrom A.length).map (fun q => (q.1 + 1, sid))⟩ := by
  induction L generalizing A S with
  | nil => simp [authorPhase]
  | cons u L' ih =>
    have hfind : A.find? (fun p => p.2 == u) = none :=
      find?_eq_none_of_all (fun p hp => hA u (by simp) p hp)
    have hstep : upsert_author A u = (A ++ [(A.length + 1, u)], A.length + 1) := by
      unfold upsert_author
      rw [hfind]
    show authorPhase
        { authors := (upsert_author A u).1,
          snapshots := S ++ [((upsert_author A u).2, sid)] } L' (sid :: rest) = _
    rw [hstep]
    have hA' : ∀ v ∈ L', ∀ p ∈ A ++ [(A.length + 1, u)], (p.2 == v) = false := by
      intro v hv p hp
      rcases List.mem_append.mp hp with hp | hp
      · exact hA v (by simp [hv]) p hp
      · rw [List.mem_singleton.mp hp]
        simp only [beq_eq_false_iff_ne, ne_eq]
        intro huv
        rw [huv] at hnd
        exact (List.nodup_cons.mp hnd).1 hv
    rw [ih (A ++ [(A.length + 1, u)]) (S ++ [(A.length + 1, sid)]) hA'
      (List.nodup_cons.mp hnd).2]
    rw [List.enumFrom_cons]
    simp [AuthorsDB.mk.injEq, List.append_assoc]

theorem enum_filter_unique (keys : List String) (n : Nat) (u : String) (sid : Nat)
    (hnd : keys.Nodup) (hu : u ∈ keys) :
    ∃ aid, n < aid ∧
      ((keys.enumFrom n).map (fun q => (q.1 + 1, q.2))).filter
        (fun p => p.2 == u) = [(aid, u)] ∧
      ((keys.enumFrom n).map (fun q => (q.1 + 1, sid))).filter
        (fun p => p.1 == aid) = [(aid, sid)] := by
  induction keys generalizing n with
  | nil => cases hu
  | cons k rest ih =>
    rw [List.enumFrom_cons]
    simp only [List.map_cons]
    by_cases hk : k = u
    · have hnotin : u ∉ rest := by
        rw [← hk]
        exact (List.nodup_cons.mp hnd).1
      refine ⟨n + 1, by omega, ?_, ?_⟩
      · rw [List.filter_cons_of_pos (by simp [hk])]
        have htail : (List.filter (fun p => p.2 == u)
            ((List.enumFrom (n + 1) rest).map (fun q => (q.1 + 1, q.2)))) = [] := by
          rw [List.filter_eq_nil_iff]
          intro p hp
          obtain ⟨q, hq, hqp⟩ := List.mem_map.mp hp
          have hq2 := (mem_enumFrom_facts hq).2
          rw [← hqp]
          intro hqu
          have hqu' : q.2 = u := by simpa using hqu
          rw [hqu'] at hq2
          exact hnotin hq2
        rw [htail, hk]
      · rw [List.filter_cons_of_pos (by simp)]
        have htail : (List.filter (fun p => p.1 == n + 1)
            ((List.enumFrom (n + 1) rest).map (fun q => (q.1 + 1, sid)))) = [] := by
          rw [List.filter_eq_nil_iff]
          intro p hp
          obtain ⟨q, hq, hqp⟩ := List.mem_map.mp hp
          have hq1 := (mem_enumFrom_facts hq).1
          rw [← hqp]
          intro hqq
          have hq1' : q.1 + 1 = n + 1 := by simpa using hqq
          omega
        rw [htail]
    · have hu' : u ∈ rest := by
        rcases List.mem_cons.mp hu with h | h
        · exact absurd h.symm hk
        · exact h
      obtain ⟨aid, haid, h1, h2⟩ := ih (n + 1) (List.nodup_cons.mp hnd).2 hu'
      refine ⟨aid, by omega, ?_, ?_⟩
      · rw [List.filter_cons_of_neg (by simp [hk])]
        exact h1
      · rw [List.filter_cons_of_neg (by simp; omega)]
        exact h2

/-- Claim C6: within one run, an author whose username appears in the
results of two different queries is aggregated into a single
`all_authors` entry, stored as exactly one `authors` row, and receives
exactly one `author_snapshots` row for the run (tied to the run's first
snapshot), not one per query. -/
theorem author_single_row_single_snapshot
    (queryResults : List (List CardRec)) (myU : String) (sid : Nat)
    (rest : List Nat) (u : String) (res1 res2 : List CardRec)
    (h1 : res1 ∈ queryResults) (h2 : res2 ∈ queryResults) (hne : res1 ≠ res2)
    (hu1 : ∃ r ∈ res1, r.authorUsername = some u)
    (hu2 : ∃ r ∈ res2, r.authorUsername = some u) :
    ∃ aid,
      (authorPhase ⟨[], []⟩
        ((addMyUsername (buildAllAuthors queryResults) myU).map Prod.fst)
        (sid :: rest)).authors.filter (fun p => p.2 == u) = [(aid, u)] ∧
      (authorPhase ⟨[], []⟩
        ((addMyUsername (buildAllAuthors queryResults) myU).map Prod.fst)
        (sid :: rest)).snapshots.filter (fun p => p.1 == aid) = [(aid, sid)] := by
  have hmem : u ∈ (addMyUsername (buildAllAuthors queryResults) myU).map Prod.fst :=
    addMyUsername_keys_mem _ myU u
      (buildAllAuthors_keys_mem _ u ⟨res1, h1, hu1⟩)
  have hnd : ((addMyUsername (buildAllAuthors queryResults) myU).map Prod.fst).Nodup :=
    addMyUsername_keys_nodup _ myU (buildAllAuthors_keys_nodup _)
  have hclosed := authorPhase_closed
    ((addMyUsername (buildAllAuthors queryResults) myU).map Prod.fst) [] [] sid rest
    (by intro v _ p hp; cases hp) hnd
  obtain ⟨aid, _, ha, hs⟩ := enum_filter_unique
    ((addMyUsername (buildAllAuthors queryResults) myU).map Prod.fst) 0 u sid hnd hmem
  rw [hclosed]
  exact ⟨aid, by simpa using ha, by simpa using hs⟩

def cexRecAlice1 : CardRec :=
  { position := 1, behanceId := "111", title := "A",
    authorUsername := some ("alice"), authorName := some ("Alice"),
    appreciations := 0, views := 0, isPromoted := false, isFeatured := false,
    coverUrl := none }

def cexRecAlice2 : CardRec :=
  { cexRecAlice1 with behanceId := "222", title := "B" }

/-- Witness for `author_single_row_single_snapshot`: the author "alice"
appears under two different queries of one run and ends with exactly one
author row and one author-snapshot row. -/
theorem author_single_row_single_snapshot_witness :
    ∃ aid,
      (authorPhase ⟨[], []⟩
        ((addMyUsername (buildAllAuthors [[cexRecAlice1], [cexRecAlice2]]) ("me")).map
          Prod.fst) (7 :: [8])).authors.filter
            (fun p => p.2 == ("alice" : String)) = [(aid, ("alice" : String))] ∧
      (authorPhase ⟨[], []⟩
        ((addMyUsername (buildAllAuthors [[cexRecAlice1], [cexRecAlice2]]) ("me")).map
          Prod.fst) (7 :: [8])).snapshots.filter (fun p => p.1 == aid) = [(aid, 7)] :=
  author_single_row_single_snapshot [[cexRecAlice1], [cexRecAlice2]] ("me") 7 [8]
    ("alice") [cexRecAlice1] [cexRecAlice2] (by decide) (by decide) (by decide)
    ⟨cexRecAlice1, by decide, by decide⟩ ⟨cexRecAlice2, by decide, by decide⟩

/-! ## C5: `_parse_behance_date` (src/scraper.py 92-133)

```python
def _parse_behance_date(text):
    if not text:
        return None, None, None
    for prefix in ["Published:", "Опубликовано:"]:
        text = text.replace(prefix, "")
    text = text.replace("г.", "").strip()
    text = re.sub(r"(\d+)(st|nd|rd|th)", r"\1", text)
    parts = text.split()
    if len(parts) < 3:
        return None, None, None
    try:
        if parts[1].lower() in MONTH_MAP:
            day = int(parts[0]); month = MONTH_MAP[parts[1].lower()]
            year = int(parts[2]); dt = datetime(year, month, day)
            return dt.strftime("%Y-%m-%d"), dt.isoweekday(), None
    except (ValueError, IndexError):
        pass
    month = MONTH_MAP.get(parts[0].lower())
    if not month:
        return None, None, None
    try:
        day = int(parts[1]); year = int(parts[2])
        dt = datetime(year, month, day)
        return dt.strftime("%Y-%m-%d"), dt.isoweekday(), None
    except (ValueError, IndexError):
        return None, None, None
```
-/

/-- Python `text.replace(pattern, "")` for a nonempty pattern
`p0 :: ps`: scan left to right, removing each (non-overlapping)
occurrence. -/
def replaceAll (p0 : Char) (ps : List Char) : List Char → List Char
  | [] => []
  | c :: cs =>
    if isPrefixOfL (p0 :: ps) (c :: cs) then replaceAll p0 ps (cs.drop ps.length)
    else c :: replaceAll p0 ps cs
termination_by s => s.length
decreasing_by
  all_goals simp only [List.length_cons, List.length_drop]
  all_goals omega

/-- The `(st|nd|rd|th)` alternation of the ordinal-suffix regex: the
four alternatives start with pairwise distinct characters, so leftmost
alternation is order-insensitive. -/
def stripOrdSuffix (s : List Char) : Option (List Char) :=
  if isPrefixOfL ['s', 't'] s then some (s.drop 2)
  else if isPrefixOfL ['n', 'd'] s then some (s.drop 2)
  else if isPrefixOfL ['r', 'd'] s then some (s.drop 2)
  else if isPrefixOfL ['t', 'h'] s then some (s.drop 2)
  else none

def ordTail (s : List Char) : List Char :=
  match stripOrdSuffix s with
  | some s' => s'
  | none => s

theorem dropWhile_length_le (p : Char → Bool) (l : List Char) :
    (l.dropWhile p).length ≤ l.length :=
  (List.dropWhile_suffix p).length_le

theorem ordTail_length_le (s : List Char) : (ordTail s).length ≤ s.length := by
  unfold ordTail stripOrdSuffix
  split_ifs <;> simp

/-- `re.sub(r"(\d+)(st|nd|rd|th)", r"\1", text)`: each maximal digit run
is kept and an immediately following ordinal suffix is dropped
(backtracking to a shorter digit run can never enable a match, because
the character after a shorter run is a digit, which starts no
alternative). -/
def ordinalSub : List Char → List Char
  | [] => []
  | c :: cs =>
    if h : c.isDigit then
      ((c :: cs).takeWhile Char.isDigit) ++
        ordinalSub (ordTail ((c :: cs).dropWhile Char.isDigit))
    else c :: ordinalSub cs
termination_by s => s.length
decreasing_by
  · rw [List.dropWhile_cons_of_pos h]
    exact Nat.lt_of_le_of_lt
      (Nat.le_trans (ordTail_length_le _) (dropWhile_length_le _ _)) (by simp)
  · simp

/-- Python `str.split()` with no argument: split on whitespace runs,
discarding empty fields. -/
def pySplit : List Char → List (List Char)
  | [] => []
  | c :: cs =>
    if h : isWs c then pySplit cs
    else ((c :: cs).takeWhile notWs) :: pySplit ((c :: cs).dropWhile notWs)
termination_by s => s.length
decreasing_by
  · simp
  · rw [List.dropWhile_cons_of_pos (by simp [notWs, h])]
    exact Nat.lt_of_le_of_lt (dropWhile_length_le _ _) (by simp)

/-- `MONTH_MAP` (src/scraper.py 81-89), keys lowercase. -/
def MONTH_MAP : List (List Char × Nat) :=
  [("january".data, 1), ("february".data, 2), ("march".data, 3),
   ("april".data, 4), ("may".data, 5), ("june".data, 6),
   ("july".data, 7), ("august".data, 8), ("september".data, 9),
   ("october".data, 10), ("november".data, 11), ("december".data, 12),
   ("января".data, 1), ("февраля".data, 2), ("марта".data, 3),
   ("апреля".data, 4), ("мая".data, 5), ("июня".data, 6),
   ("июля".data, 7), ("августа".data, 8), ("сентября".data, 9),
   ("октября".data, 10), ("ноября".data, 11), ("декабря".data, 12)]

/-- Python dict membership / lookup on the month map. -/
def assocFind (k : List Char) : List (List Char × Nat) → Option Nat
  | [] => none
  | p :: rest => if k = p.1 then some p.2 else assocFind k rest

/-- Python `int(str)`: optional surrounding whitespace, optional sign,
then decimal digits (underscore grouping is not used by this pipeline
and is not modelled). -/
def pyInt (s : List Char) : Option Int :=
  match pyStrip s with
  | [] => none
  | c :: ds =>
    if c = '-' then
      if ds ≠ [] ∧ ds.all Char.isDigit then some (-(parseNatD ds : Int)) else none
    else if c = '+' then
      if ds ≠ [] ∧ ds.all Char.isDigit then some ((parseNatD ds : Int)) else none
    else if (c :: ds).all Char.isDigit then some ((parseNatD (c :: ds) : Int))
    else none

def isLeap (y : Int) : Bool := y % 4 = 0 && (y % 100 != 0 || y % 400 = 0)

def daysInMonthI (y m : Int) : Int :=
  if m = 2 then (if isLeap y then 29 else 28)
  else if m = 4 ∨ m = 6 ∨ m = 9 ∨ m = 11 then 30
  else 31

/-- `datetime(year, month, day)`: validates ranges (year 1..9999, month
1..12, day 1..month length), raising `ValueError` (here: `none`)
otherwise. -/
def datetimeNew (y m d : Int) : Option (Nat × Nat × Nat) :=
  if 1 ≤ y ∧ y ≤ 9999 ∧ 1 ≤ m ∧ m ≤ 12 ∧ 1 ≤ d ∧ d ≤ daysInMonthI y m then
    some (y.toNat, m.toNat, d.toNat)
  else none

def pad2 (n : Nat) : List Char := if n < 10 then '0' :: natDigits n else natDigits n

/-- `dt.strftime("%Y-%m-%d")`: `%m`/`%d` zero-padded to two digits;
`%Y` is the plain decimal year (glibc does not pad it). -/
def fmtYmd (dt : Nat × Nat × Nat) : List Char :=
  natDigits dt.1 ++ '-' :: pad2 dt.2.1 ++ '-' :: pad2 dt.2.2

def sakamotoT : List Nat := [0, 3, 2, 5, 0, 3, 5, 1, 4, 6, 2, 4]

/-- `dt.isoweekday()` (Monday = 1 … Sunday = 7), Sakamoto's method. -/
def isoweekday (dt : Nat × Nat × Nat) : Nat :=
  let y := if dt.2.1 < 3 then dt.1 - 1 else dt.1
  let w := (y + y / 4 - y / 100 + y / 400 + sakamotoT.getD (dt.2.1 - 1) 0 + dt.2.2) % 7
  if w = 0 then 7 else w

/-- The English branch of `_parse_behance_date` (src/scraper.py
122-133), reached when the Russian branch falls through or raises. -/
def enBranch (a b c : List Char) : Option String × Option Nat × Option Nat :=
  match assocFind (a.map pyLowerChar) MONTH_MAP with
  | none => (none, none, none)
  | some month =>
    match pyInt b, pyInt c with
    | some day, some year =>
      match datetimeNew year (month : Int) day with
      | some dt => (some (String.mk (fmtYmd dt)), some (isoweekday dt), none)
      | none => (none, none, none)
    | _, _ => (none, none, none)

/-- The text-normalisation pipeline of `_parse_behance_date`
(src/scraper.py 103-107): strip the two language prefixes, remove
`"г."`, strip, remove ordinal suffixes, split on whitespace. -/
def preprocess (L : List Char) : List (List Char) :=
  pySplit (ordinalSub (pyStrip (replaceAll 'г' ['.']
    (replaceAll 'О' ("публиковано:".data) (replaceAll 'P' ("ublished:".data) L)))))

/-- The branch logic of `_parse_behance_date` over the split parts
(src/scraper.py 108-133): the Russian day/month-name/year attempt,
falling through to the English month-name/day/year attempt when the
month lookup, `int()` or `datetime()` fails. -/
def parseParts : List (List Char) → Option String × Option Nat × Option Nat
  | a :: b :: c :: _ =>
    (match assocFind (b.map pyLowerChar) MONTH_MAP with
     | some month =>
       (match pyInt a, pyInt c with
        | some day, some year =>
          (match datetimeNew year (month : Int) day with
           | some dt => (some (String.mk (fmtYmd dt)), some (isoweekday dt), none)
           | none => enBranch a b c)
        | _, _ => enBranch a b c)
     | none => enBranch a b c)
  | _ => (none, none, none)

/-- `_parse_behance_date` (src/scraper.py 92-133). -/
def parse_behance_date (text : Option String) :
    Option String × Option Nat × Option Nat :=
  match text with
  | none => (none, none, none)
  | some str =>
    if str.data.isEmpty then (none, none, none)
    else parseParts (preprocess str.data)

/-- English ordinal suffix of a day number. -/
def ordSuffix (d : Nat) : List Char :=
  if d % 100 = 11 ∨ d % 100 = 12 ∨ d % 100 = 13 then ['t', 'h']
  else if d % 10 = 1 then ['s', 't']
  else if d % 10 = 2 then ['n', 'd']
  else if d % 10 = 3 then ['r', 'd']
  else ['t', 'h']

def enMonthName : Nat → List Char
  | 1 => "January".data
  | 2 => "February".data
  | 3 => "March".data
  | 4 => "April".data
  | 5 => "May".data
  | 6 => "June".data
  | 7 => "July".data
  | 8 => "August".data
  | 9 => "September".data
  | 10 => "October".data
  | 11 => "November".data
  | _ => "December".data

def ruMonthName : Nat → List Char
  | 1 => "января".data
  | 2 => "февраля".data
  | 3 => "марта".data
  | 4 => "апреля".data
  | 5 => "мая".data
  | 6 => "июня".data
  | 7 => "июля".data
  | 8 => "августа".data
  | 9 => "сентября".data
  | 10 => "октября".data
  | 11 => "ноября".data
  | _ => "декабря".data

/-- The English sentence template, e.g. "Published: January 13th 2026". -/
def enDateSentence (y m d : Nat) : String :=
  String.mk ("Published:".data ++ ' ' :: enMonthName m ++ ' ' :: natDigits d
    ++ ordSuffix d ++ ' ' :: natDigits y)

/-- The Russian sentence template, e.g.
"Опубликовано: 13 января 2026 г.". -/
def ruDateSentence (y m d : Nat) : String :=
  String.mk ("Опубликовано:".data ++ ' ' :: natDigits d ++ ' ' :: ruMonthName m
    ++ ' ' :: natDigits y ++ ' ' :: ['г', '.'])

/-! ### Lemmas for the preprocessing pipeline of `_parse_behance_date` -/

theorem takeWhile_append_all {p : Char → Bool} {t : List Char} (r : List Char)
    (h : ∀ c ∈ t, p c = true) : (t ++ r).takeWhile p = t ++ r.takeWhile p := by
  induction t with
  | nil => rfl
  | cons a t ih =>
    rw [List.cons_append, List.takeWhile_cons_of_pos (h a (by simp))]
    rw [ih (fun c hc => h c (by simp [hc]))]
    rfl

theorem dropWhile_append_all {p : Char → Bool} {t : List Char} (r : List Char)
    (h : ∀ c ∈ t, p c = true) : (t ++ r).dropWhile p = r.dropWhile p := by
  induction t with
  | nil => rfl
  | cons a t ih =>
    rw [List.cons_append, List.dropWhile_cons_of_pos (h a (by simp))]
    exact ih (fun c hc => h c (by simp [hc]))

theorem dropWhile_id_of_all {p : Char → Bool} (m : List Char)
    (hm : ∀ c ∈ m, p c = false) : m.dropWhile p = m := by
  cases m with
  | nil => rfl
  | cons c cs => exact List.dropWhile_cons_of_neg (by simp [hm c (by simp)])

theorem replaceAll_nil (p0 : Char) (ps : List Char) : replaceAll p0 ps [] = [] := by
  simp [replaceAll]

theorem replaceAll_cons (p0 : Char) (ps : List Char) (c : Char) (cs : List Char) :
    replaceAll p0 ps (c :: cs) =
      if isPrefixOfL (p0 :: ps) (c :: cs) then replaceAll p0 ps (cs.drop ps.length)
      else c :: replaceAll p0 ps cs := by
  rw [replaceAll]

theorem isPrefixOfL_append_self (p t : List Char) : isPrefixOfL p (p ++ t) = true := by
  induction p with
  | nil => rfl
  | cons c cs ih => simp [isPrefixOfL, ih]

theorem replaceAll_not_contains (p0 : Char) (ps : List Char) (s : List Char)
    (h : containsSubL (p0 :: ps) s = false) : replaceAll p0 ps s = s := by
  induction s with
  | nil => exact replaceAll_nil p0 ps
  | cons c cs ih =>
    simp only [containsSubL, Bool.or_eq_false_iff] at h
    rw [replaceAll_cons, if_neg (by simp [h.1]), ih h.2]

theorem replaceAll_not_mem (p0 : Char) (ps : List Char) (s : List Char) (x : Char)
    (hx : x ∈ p0 :: ps) (hs : ∀ c ∈ s, c ≠ x) : replaceAll p0 ps s = s :=
  replaceAll_not_contains p0 ps s
    (containsSubL_eq_false hx (fun hmem => (hs x hmem) rfl))

theorem replaceAll_front (p0 : Char) (ps rest : List Char) :
    replaceAll p0 ps ((p0 :: ps) ++ rest) = replaceAll p0 ps rest := by
  rw [List.cons_append, replaceAll_cons]
  rw [if_pos (by rw [← List.cons_append]; exact isPrefixOfL_append_self (p0 :: ps) rest)]
  congr 1
  exact List.drop_left ps rest

theorem replaceAll_end_pair (p0 p1 : Char) (A : List Char)
    (h1 : ∀ c ∈ A, c ≠ p1) (h0 : p1 ≠ p0) :
    replaceAll p0 [p1] (A ++ [p0, p1]) = A := by
  induction A with
  | nil =>
    rw [List.nil_append, replaceAll_cons]
    rw [if_pos (by simp [isPrefixOfL])]
    simp [replaceAll_nil]
  | cons a A' ih =>
    rw [List.cons_append, replaceAll_cons]
    have hneg : isPrefixOfL (p0 :: [p1]) (a :: (A' ++ [p0, p1])) = false := by
      cases A' with
      | nil =>
        simp only [List.nil_append, isPrefixOfL]
        simp [h0]
      | cons b B =>
        simp only [List.cons_append, isPrefixOfL]
        have hb : p1 ≠ b := fun hb => (h1 b (by simp)) hb.symm
        simp [hb]
    rw [if_neg (by simp [hneg]), ih (fun c hc => h1 c (by simp [hc]))]

theorem pyStrip_sandwich (lead body trail : List Char) (b e : Char) (B E : List Char)
    (hb : body = b :: B) (he : body.reverse = e :: E)
    (hbws : isWs b = false) (hews : isWs e = false)
    (hl : ∀ c ∈ lead, isWs c = true) (ht : ∀ c ∈ trail, isWs c = true) :
    pyStrip (lead ++ body ++ trail) = body := by
  unfold pyStrip
  rw [List.append_assoc, dropWhile_append_all _ hl]
  rw [hb, List.cons_append, List.dropWhile_cons_of_neg (by simp [hbws])]
  rw [← List.cons_append, ← hb]
  rw [List.reverse_append]
  rw [dropWhile_append_all _ (fun c hc => ht c (List.mem_reverse.mp hc))]
  rw [he, List.dropWhile_cons_of_neg (by simp [hews]), ← he, List.reverse_reverse]

theorem pyStrip_id (l : List Char) (h : ∀ c ∈ l, isWs c = false) : pyStrip l = l := by
  unfold pyStrip
  rw [dropWhile_id_of_all l h]
  rw [dropWhile_id_of_all l.reverse (fun c hc => h c (List.mem_reverse.mp hc))]
  exact List.reverse_reverse l

theorem ordinalSub_nil : ordinalSub [] = [] := by simp [ordinalSub]

theorem ordinalSub_cons_digit (c : Char) (cs : List Char) (h : c.isDigit = true) :
    ordinalSub (c :: cs) =
      ((c :: cs).takeWhile Char.isDigit) ++
        ordinalSub (ordTail ((c :: cs).dropWhile Char.isDigit)) := by
  rw [ordinalSub]
  rw [dif_pos h]

theorem ordinalSub_cons_nondigit (c : Char) (cs : List Char) (h : c.isDigit = false) :
    ordinalSub (c :: cs) = c :: ordinalSub cs := by
  rw [ordinalSub]
  rw [dif_neg (by simp [h])]

theorem ordinalSub_nondigit_append (A B : List Char)
    (h : ∀ c ∈ A, c.isDigit = false) : ordinalSub (A ++ B) = A ++ ordinalSub B := by
  induction A with
  | nil => rfl
  | cons a A ih =>
    rw [List.cons_append, ordinalSub_cons_nondigit _ _ (h a (by simp))]
    rw [ih (fun c hc => h c (by simp [hc]))]
    rfl

theorem dropWhile_of_takeWhile_nil {p : Char → Bool} {l : List Char}
    (h : l.takeWhile p = []) : l.dropWhile p = l := by
  cases l with
  | nil => rfl
  | cons c cs =>
    rcases hp : p c with _ | _
    · exact List.dropWhile_cons_of_neg (by simp [hp])
    · rw [List.takeWhile_cons_of_pos hp] at h
      cases h

theorem ordinalSub_digit_run (D rest : List Char) (hne : D ≠ [])
    (hD : ∀ c ∈ D, c.isDigit = true) (hrest : rest.takeWhile Char.isDigit = []) :
    ordinalSub (D ++ rest) = D ++ ordinalSub (ordTail rest) := by
  obtain ⟨d0, D', hDeq⟩ : ∃ d0 D', D = d0 :: D' := by
    cases D with
    | nil => exact absurd rfl hne
    | cons x xs => exact ⟨x, xs, rfl⟩
  subst hDeq
  rw [List.cons_append, ordinalSub_cons_digit _ _ (hD d0 (by simp))]
  rw [← List.cons_append]
  rw [takeWhile_append_all _ hD, hrest, List.append_nil]
  rw [dropWhile_append_all _ hD, dropWhile_of_takeWhile_nil hrest]

theorem ordTail_space (xs : List Char) : ordTail (' ' :: xs) = ' ' :: xs := by
  simp [ordTail, stripOrdSuffix, isPrefixOfL]

theorem ordTail_nil : ordTail [] = [] := by
  simp [ordTail, stripOrdSuffix, isPrefixOfL]

theorem ordTail_ordSuffix (d : Nat) (rest : List Char) :
    ordTail (ordSuffix d ++ rest) = rest := by
  unfold ordSuffix
  split_ifs <;> simp [ordTail, stripOrdSuffix, isPrefixOfL]

theorem pySplit_nil : pySplit [] = [] := by simp [pySplit]

theorem pySplit_cons_ws (c : Char) (cs : List Char) (h : isWs c = true) :
    pySplit (c :: cs) = pySplit cs := by
  rw [pySplit]
  rw [dif_pos h]

theorem pySplit_cons_token (c : Char) (cs : List Char) (h : isWs c = false) :
    pySplit (c :: cs) =
      ((c :: cs).takeWhile notWs) :: pySplit ((c :: cs).dropWhile notWs) := by
  rw [pySplit]
  rw [dif_neg (by simp [h])]

theorem pySplit_token_append (t r : List Char) (hne : t ≠ [])
    (h : ∀ c ∈ t, isWs c = false) : pySplit (t ++ ' ' :: r) = t :: pySplit r := by
  obtain ⟨c0, t', hteq⟩ : ∃ c0 t', t = c0 :: t' := by
    cases t with
    | nil => exact absurd rfl hne
    | cons x xs => exact ⟨x, xs, rfl⟩
  have hall : ∀ c ∈ t, notWs c = true := fun c hc => by simp [notWs, h c hc]
  subst hteq
  rw [List.cons_append, pySplit_cons_token _ _ (h c0 (by simp))]
  rw [← List.cons_append]
  rw [takeWhile_append_all _ hall, dropWhile_append_all _ hall]
  rw [List.takeWhile_cons_of_neg (by decide), List.append_nil]
  rw [List.dropWhile_cons_of_neg (by decide)]
  rw [pySplit_cons_ws ' ' r (by decide)]

theorem pySplit_token_only (t : List Char) (hne : t ≠ [])
    (h : ∀ c ∈ t, isWs c = false) : pySplit t = [t] := by
  obtain ⟨c0, t', hteq⟩ : ∃ c0 t', t = c0 :: t' := by
    cases t with
    | nil => exact absurd rfl hne
    | cons x xs => exact ⟨x, xs, rfl⟩
  have hall : ∀ c ∈ t, notWs c = true := fun c hc => by simp [notWs, h c hc]
  have h1 : t.takeWhile notWs = t := by
    have := takeWhile_append_all (t := t) [] hall
    simpa using this
  have h2 : t.dropWhile notWs = [] := by
    have := dropWhile_append_all (t := t) [] hall
    simpa using this
  subst hteq
  rw [pySplit_cons_token _ _ (h c0 (by simp)), h1, h2, pySplit_nil]

/-- The characters the templates may contain besides spaces, digits and
the prefix words: they are not whitespace, not `':'`/`'.'` (so the
prefix- and `"г."`-removal steps cannot fire inside them), not digits
(so the ordinal regex skips them) and not `'P'` (so `"Published:"`
cannot occur in a Russian sentence). -/
def tokOk (c : Char) : Bool :=
  !(isWs c) && c != ':' && c != '.' && !c.isDigit && c != 'P'

theorem digitChar_class (k : Nat) :
    isWs (digitChar k) = false ∧ digitChar k ≠ ':' ∧ digitChar k ≠ '.' ∧
    digitChar k ≠ 'P' ∧ digitChar k ≠ '-' ∧ digitChar k ≠ '+' := by
  unfold digitChar
  split_ifs <;> exact (by decide)

theorem natDigits_class (n : Nat) : ∀ c ∈ natDigits n,
    isWs c = false ∧ c ≠ ':' ∧ c ≠ '.' ∧ c ≠ 'P' ∧ c ≠ '-' ∧ c ≠ '+' := by
  induction n using Nat.strong_induction_on with
  | _ n ih =>
    rw [natDigits_eq]
    split
    · intro c hc
      simp at hc
      subst hc
      exact digitChar_class n
    · intro c hc
      simp at hc
      rcases hc with hc | hc
      · exact ih (n / 10) (Nat.div_lt_self (by omega) (by omega)) c hc
      · subst hc
        exact digitChar_class (n % 10)

theorem pyLowerChar_digitChar (k : Nat) : pyLowerChar (digitChar k) = digitChar k := by
  unfold digitChar
  split_ifs <;> decide

theorem map_pyLower_natDigits (n : Nat) :
    (natDigits n).map pyLowerChar = natDigits n := by
  induction n using Nat.strong_induction_on with
  | _ n ih =>
    rw [natDigits_eq]
    split
    · simp [pyLowerChar_digitChar]
    · rw [List.map_append]
      rw [ih (n / 10) (Nat.div_lt_self (by omega) (by omega))]
      simp [pyLowerChar_digitChar]

theorem ordSuffix_class (d : Nat) : ∀ c ∈ ordSuffix d,
    c.isDigit = false ∧ isWs c = false ∧ c ≠ ':' ∧ c ≠ '.' ∧ c ≠ 'P' := by
  unfold ordSuffix
  split_ifs <;> decide

theorem assocFind_digit_none (d0 : Char) (D : List Char) (hd : d0.isDigit = true)
    (l : List (List Char × Nat))
    (hl : (l.all fun p =>
      match p.1 with
      | [] => false
      | k :: _ => !k.isDigit) = true) :
    assocFind (d0 :: D) l = none := by
  induction l with
  | nil => rfl
  | cons p rest ih =>
    simp only [List.all_cons, Bool.and_eq_true] at hl
    show (if (d0 :: D) = p.1 then some p.2 else assocFind (d0 :: D) rest) = none
    rw [if_neg, ih hl.2]
    intro hk
    have h1 := hl.1
    rw [← hk] at h1
    simp only [Bool.not_eq_true'] at h1
    rw [hd] at h1
    cases h1

theorem month_map_heads : (MONTH_MAP.all fun p =>
    match p.1 with
    | [] => false
    | k :: _ => !k.isDigit) = true := by decide

theorem assocFind_natDigits_none (n : Nat) :
    assocFind ((natDigits n).map pyLowerChar) MONTH_MAP = none := by
  rw [map_pyLower_natDigits]
  obtain ⟨d0, ds, hD⟩ : ∃ d0 ds, natDigits n = d0 :: ds := by
    cases hh : natDigits n with
    | nil => exact absurd hh (natDigits_ne_nil n)
    | cons x xs => exact ⟨x, xs, rfl⟩
  rw [hD]
  exact assocFind_digit_none d0 ds
    (natDigits_all_digit n d0 (by rw [hD]; simp)) MONTH_MAP month_map_heads

theorem pyInt_natDigits (n : Nat) : pyInt (natDigits n) = some ((n : Int)) := by
  unfold pyInt
  rw [pyStrip_id _ (fun c hc => (natDigits_class n c hc).1)]
  obtain ⟨d0, ds, hD⟩ : ∃ d0 ds, natDigits n = d0 :: ds := by
    cases hh : natDigits n with
    | nil => exact absurd hh (natDigits_ne_nil n)
    | cons x xs => exact ⟨x, xs, rfl⟩
  rw [hD]
  show (if d0 = '-' then _ else _) = _
  rw [if_neg (natDigits_class n d0 (by rw [hD]; simp)).2.2.2.2.1]
  rw [if_neg (natDigits_class n d0 (by rw [hD]; simp)).2.2.2.2.2]
  rw [if_pos]
  · rw [← hD, parseNatD_natDigits]
  · rw [List.all_eq_true, ← hD]
    exact natDigits_all_digit n

theorem datetimeNew_valid (y m d : Nat) (hy : 1 ≤ y ∧ y ≤ 9999) (hm : 1 ≤ m ∧ m ≤ 12)
    (hd : 1 ≤ d ∧ (d : Int) ≤ daysInMonthI (y : Int) (m : Int)) :
    datetimeNew (y : Int) (m : Int) (d : Int) = some (y, m, d) := by
  unfold datetimeNew
  rw [if_pos]
  · simp
  · refine ⟨by exact_mod_cast hy.1, by exact_mod_cast hy.2, by exact_mod_cast hm.1,
      by exact_mod_cast hm.2, by exact_mod_cast hd.1, hd.2⟩

theorem tokOk_props {c : Char} (h : tokOk c = true) :
    isWs c = false ∧ c ≠ ':' ∧ c ≠ '.' ∧ c.isDigit = false ∧ c ≠ 'P' := by
  simp only [tokOk, Bool.and_eq_true, Bool.not_eq_true', bne_iff_ne, ne_eq] at h
  exact ⟨h.1.1.1.1, h.1.1.1.2, h.1.1.2, h.1.2, h.2⟩

theorem exists_cons_of_ne_nil {l : List Char} (h : l ≠ []) : ∃ c cs, l = c :: cs := by
  cases l with
  | nil => exact absurd rfl h
  | cons c cs => exact ⟨c, cs, rfl⟩

theorem ordinalSub_digits (Y : List Char) (hne : Y ≠ [])
    (hY : ∀ c ∈ Y, c.isDigit = true) : ordinalSub Y = Y := by
  conv_lhs => rw [← List.append_nil Y]
  rw [ordinalSub_digit_run Y [] hne hY rfl, ordTail_nil, ordinalSub_nil, List.append_nil]

theorem ordSuffix_takeWhile_nil (d : Nat) (X : List Char) :
    (ordSuffix d ++ X).takeWhile Char.isDigit = [] := by
  unfold ordSuffix
  split_ifs <;> rw [List.cons_append, List.takeWhile_cons_of_neg (by decide)]

theorem pySplit_three (M D Y : List Char) (hMne : M ≠ []) (hDne : D ≠ []) (hYne : Y ≠ [])
    (hMws : ∀ c ∈ M, isWs c = false) (hDws : ∀ c ∈ D, isWs c = false)
    (hYws : ∀ c ∈ Y, isWs c = false) :
    pySplit (M ++ (' ' :: (D ++ (' ' :: Y)))) = [M, D, Y] := by
  rw [pySplit_token_append M _ hMne hMws]
  rw [pySplit_token_append D _ hDne hDws]
  rw [pySplit_token_only Y hYne hYws]

/-- Preprocessing of the English sentence template: it normalises to the
three tokens month-name, day, year. -/
theorem preprocess_en (M : List Char) (d y : Nat) (hMne : M ≠ [])
    (htok : ∀ c ∈ M, tokOk c = true) :
    preprocess ("Published:".data ++
        (' ' :: (M ++ (' ' :: (natDigits d ++ (ordSuffix d ++ (' ' :: natDigits y)))))))
      = [M, natDigits d, natDigits y] := by
  obtain ⟨m0, M0, hM⟩ := exists_cons_of_ne_nil hMne
  have hMp : ∀ c ∈ M, isWs c = false ∧ c ≠ ':' ∧ c ≠ '.' ∧ c.isDigit = false ∧ c ≠ 'P' :=
    fun c hc => tokOk_props (htok c hc)
  have hDc := natDigits_class d
  have hYc := natDigits_class y
  have hDd := natDigits_all_digit d
  have hYd := natDigits_all_digit y
  have hSc := ordSuffix_class d
  have hneColon : ∀ c ∈ (' ' :: (M ++ (' ' :: (natDigits d ++
      (ordSuffix d ++ (' ' :: natDigits y))))) : List Char), c ≠ ':' := by
    refine List.forall_mem_cons.mpr ⟨by decide, ?_⟩
    refine List.forall_mem_append.mpr ⟨fun c hc => (hMp c hc).2.1, ?_⟩
    refine List.forall_mem_cons.mpr ⟨by decide, ?_⟩
    refine List.forall_mem_append.mpr ⟨fun c hc => (hDc c hc).2.1, ?_⟩
    refine List.forall_mem_append.mpr ⟨fun c hc => (hSc c hc).2.2.1, ?_⟩
    exact List.forall_mem_cons.mpr ⟨by decide, fun c hc => (hYc c hc).2.1⟩
  have hneDot : ∀ c ∈ (' ' :: (M ++ (' ' :: (natDigits d ++
      (ordSuffix d ++ (' ' :: natDigits y))))) : List Char), c ≠ '.' := by
    refine List.forall_mem_cons.mpr ⟨by decide, ?_⟩
    refine List.forall_mem_append.mpr ⟨fun c hc => (hMp c hc).2.2.1, ?_⟩
    refine List.forall_mem_cons.mpr ⟨by decide, ?_⟩
    refine List.forall_mem_append.mpr ⟨fun c hc => (hDc c hc).2.2.1, ?_⟩
    refine List.forall_mem_append.mpr ⟨fun c hc => (hSc c hc).2.2.2.1, ?_⟩
    exact List.forall_mem_cons.mpr ⟨by decide, fun c hc => (hYc c hc).2.2.1⟩
  unfold preprocess
  rw [show ("Published:".data : List Char) = 'P' :: ("ublished:".data) from by decide]
  rw [replaceAll_front]
  rw [replaceAll_not_mem 'P' ("ublished:".data) _ ':' (by decide) hneColon]
  rw [replaceAll_not_mem 'О' ("публиковано:".data) _ ':' (by decide) hneColon]
  rw [replaceAll_not_mem 'г' ['.'] _ '.' (by decide) hneDot]
  have hYne := natDigits_ne_nil y
  obtain ⟨e, E0, hYrev⟩ : ∃ e E0, (natDigits y).reverse = e :: E0 :=
    exists_cons_of_ne_nil (by simpa using hYne)
  have hbody2 : (M ++ (' ' :: (natDigits d ++ (ordSuffix d ++ (' ' :: natDigits y))))
      : List Char)
      = (M ++ (' ' :: (natDigits d ++ (ordSuffix d ++ [' '])))) ++ natDigits y := by
    simp [List.append_assoc]
  have hbrev : (M ++ (' ' :: (natDigits d ++ (ordSuffix d ++ (' ' :: natDigits y))))
      : List Char).reverse
      = e :: (E0 ++ (M ++ (' ' :: (natDigits d ++ (ordSuffix d ++ [' '])))).reverse) := by
    rw [hbody2, List.reverse_append, hYrev, List.cons_append]
  have hestrip : pyStrip (' ' :: (M ++ (' ' :: (natDigits d ++
      (ordSuffix d ++ (' ' :: natDigits y))))))
      = M ++ (' ' :: (natDigits d ++ (ordSuffix d ++ (' ' :: natDigits y)))) := by
    rw [show (' ' :: (M ++ (' ' :: (natDigits d ++ (ordSuffix d ++ (' ' :: natDigits y)))))
        : List Char)
        = [' '] ++ (M ++ (' ' :: (natDigits d ++ (ordSuffix d ++ (' ' :: natDigits y)))))
          ++ [] from by simp]
    refine pyStrip_sandwich _ _ _ m0
      e (M0 ++ (' ' :: (natDigits d ++ (ordSuffix d ++ (' ' :: natDigits y))))) _
      (by rw [hM]; rfl) hbrev
      ((hMp m0 (by rw [hM]; simp)).1)
      ?_ ?_ ?_
    · exact (hYc e (List.mem_reverse.mp (by rw [hYrev]; simp))).1
    · intro c hc
      simp at hc
      subst hc
      decide
    · intro c hc
      cases hc
  rw [hestrip]
  have hsub : ordinalSub (M ++ (' ' :: (natDigits d ++ (ordSuffix d ++
      (' ' :: natDigits y)))))
      = M ++ (' ' :: (natDigits d ++ (' ' :: natDigits y))) := by
    rw [ordinalSub_nondigit_append M _ (fun c hc => (hMp c hc).2.2.2.1)]
    rw [ordinalSub_cons_nondigit _ _ (by decide)]
    rw [ordinalSub_digit_run (natDigits d) _ (natDigits_ne_nil d) hDd
      (ordSuffix_takeWhile_nil d _)]
    rw [ordTail_ordSuffix]
    rw [ordinalSub_cons_nondigit _ _ (by decide)]
    rw [ordinalSub_digits _ hYne hYd]
  rw [hsub]
  exact pySplit_three M (natDigits d) (natDigits y) hMne (natDigits_ne_nil d) hYne
    (fun c hc => (hMp c hc).1) (fun c hc => (hDc c hc).1) (fun c hc => (hYc c hc).1)

/-- Preprocessing of the Russian sentence template: it normalises to the
three tokens day, month-name, year. -/
theorem preprocess_ru (M : List Char) (d y : Nat) (hMne : M ≠ [])
    (htok : ∀ c ∈ M, tokOk c = true) :
    preprocess ("Опубликовано:".data ++
        ((' ' :: natDigits d) ++ ((' ' :: M) ++ ((' ' :: natDigits y)
          ++ (' ' :: ['г', '.'])))))
      = [natDigits d, M, natDigits y] := by
  have hMp : ∀ c ∈ M, isWs c = false ∧ c ≠ ':' ∧ c ≠ '.' ∧ c.isDigit = false ∧ c ≠ 'P' :=
    fun c hc => tokOk_props (htok c hc)
  have hDc := natDigits_class d
  have hYc := natDigits_class y
  have hDd := natDigits_all_digit d
  have hYd := natDigits_all_digit y
  have hDne := natDigits_ne_nil d
  have hYne := natDigits_ne_nil y
  obtain ⟨d0, D0, hD⟩ := exists_cons_of_ne_nil hDne
  have hneP : ∀ c ∈ ("Опубликовано:".data ++
      ((' ' :: natDigits d) ++ ((' ' :: M) ++ ((' ' :: natDigits y)
        ++ (' ' :: ['г', '.'])))) : List Char), c ≠ 'P' := by
    refine List.forall_mem_append.mpr ⟨by decide, ?_⟩
    refine List.forall_mem_cons.mpr ⟨by decide, ?_⟩
    refine List.forall_mem_append.mpr ⟨fun c hc => (hDc c hc).2.2.2.1, ?_⟩
    refine List.forall_mem_cons.mpr ⟨by decide, ?_⟩
    refine List.forall_mem_append.mpr ⟨fun c hc => (hMp c hc).2.2.2.2, ?_⟩
    refine List.forall_mem_cons.mpr ⟨by decide, ?_⟩
    refine List.forall_mem_append.mpr ⟨fun c hc => (hYc c hc).2.2.2.1, ?_⟩
    intro c hc
    simp at hc
    rcases hc with rfl | rfl | rfl <;> decide
  have hneColon : ∀ c ∈ ((' ' :: natDigits d) ++ ((' ' :: M) ++ ((' ' :: natDigits y)
      ++ (' ' :: ['г', '.']))) : List Char), c ≠ ':' := by
    refine List.forall_mem_cons.mpr ⟨by decide, ?_⟩
    refine List.forall_mem_append.mpr ⟨fun c hc => (hDc c hc).2.1, ?_⟩
    refine List.forall_mem_cons.mpr ⟨by decide, ?_⟩
    refine List.forall_mem_append.mpr ⟨fun c hc => (hMp c hc).2.1, ?_⟩
    refine List.forall_mem_cons.mpr ⟨by decide, ?_⟩
    refine List.forall_mem_append.mpr ⟨fun c hc => (hYc c hc).2.1, ?_⟩
    intro c hc
    simp at hc
    rcases hc with rfl | rfl | rfl <;> decide
  have hneDotA : ∀ c ∈ ((' ' :: natDigits d) ++ ((' ' :: M) ++ ((' ' :: natDigits y)
      ++ [' '])) : List Char), c ≠ '.' := by
    refine List.forall_mem_cons.mpr ⟨by decide, ?_⟩
    refine List.forall_mem_append.mpr ⟨fun c hc => (hDc c hc).2.2.1, ?_⟩
    refine List.forall_mem_cons.mpr ⟨by decide, ?_⟩
    refine List.forall_mem_append.mpr ⟨fun c hc => (hMp c hc).2.2.1, ?_⟩
    refine List.forall_mem_cons.mpr ⟨by decide, ?_⟩
    refine List.forall_mem_append.mpr ⟨fun c hc => (hYc c hc).2.2.1, ?_⟩
    intro c hc
    simp at hc
    subst hc
    decide
  unfold preprocess
  rw [replaceAll_not_mem 'P' ("ublished:".data) _ 'P' (by decide) hneP]
  rw [show ("Опубликовано:".data : List Char) = 'О' :: ("публиковано:".data) from by decide]
  rw [replaceAll_front]
  rw [replaceAll_not_mem 'О' ("публиковано:".data) _ ':' (by decide) hneColon]
  rw [show ((' ' :: natDigits d) ++ ((' ' :: M) ++ ((' ' :: natDigits y)
      ++ (' ' :: ['г', '.']))) : List Char)
      = ((' ' :: natDigits d) ++ ((' ' :: M) ++ ((' ' :: natDigits y) ++ [' '])))
        ++ ['г', '.'] from by simp]
  rw [replaceAll_end_pair 'г' '.' _ hneDotA (by decide)]
  obtain ⟨e, E0, hYrev⟩ : ∃ e E0, (natDigits y).reverse = e :: E0 :=
    exists_cons_of_ne_nil (by simpa using hYne)
  have hbody2 : (natDigits d ++ (' ' :: (M ++ (' ' :: natDigits y))) : List Char)
      = (natDigits d ++ (' ' :: (M ++ [' ']))) ++ natDigits y := by
    simp [List.append_assoc]
  have hbrev : (natDigits d ++ (' ' :: (M ++ (' ' :: natDigits y))) : List Char).reverse
      = e :: (E0 ++ (natDigits d ++ (' ' :: (M ++ [' ']))).reverse) := by
    rw [hbody2, List.reverse_append, hYrev, List.cons_append]
  have hestrip : pyStrip ((' ' :: natDigits d) ++ ((' ' :: M) ++ ((' ' :: natDigits y)
      ++ [' '])))
      = natDigits d ++ (' ' :: (M ++ (' ' :: natDigits y))) := by
    rw [show ((' ' :: natDigits d) ++ ((' ' :: M) ++ ((' ' :: natDigits y) ++ [' ']))
        : List Char)
        = [' '] ++ (natDigits d ++ (' ' :: (M ++ (' ' :: natDigits y)))) ++ [' ']
        from by simp]
    refine pyStrip_sandwich _ _ _ d0 e
      (D0 ++ (' ' :: (M ++ (' ' :: natDigits y)))) _
      (by rw [hD]; rfl) hbrev
      ((hDc d0 (by rw [hD]; simp)).1)
      ?_ ?_ ?_
    · exact (hYc e (List.mem_reverse.mp (by rw [hYrev]; simp))).1
    · intro c hc
      simp at hc
      subst hc
      decide
    · intro c hc
      simp at hc
      subst hc
      decide
  rw [hestrip]
  have hsub : ordinalSub (natDigits d ++ (' ' :: (M ++ (' ' :: natDigits y))))
      = natDigits d ++ (' ' :: (M ++ (' ' :: natDigits y))) := by
    rw [ordinalSub_digit_run (natDigits d) _ hDne hDd
      (List.takeWhile_cons_of_neg (by decide))]
    rw [ordTail_space]
    rw [ordinalSub_cons_nondigit _ _ (by decide)]
    rw [ordinalSub_nondigit_append M _ (fun c hc => (hMp c hc).2.2.2.1)]
    rw [ordinalSub_cons_nondigit _ _ (by decide)]
    rw [ordinalSub_digits _ hYne hYd]
  rw [hsub]
  exact pySplit_three (natDigits d) M (natDigits y) hDne hMne hYne
    (fun c hc => (hDc c hc).1) (fun c hc => (hMp c hc).1) (fun c hc => (hYc c hc).1)

theorem parseParts_en (M : List Char) (mo y d : Nat)
    (hlook : assocFind (M.map pyLowerChar) MONTH_MAP = some mo)
    (hy : 1 ≤ y ∧ y ≤ 9999) (hm : 1 ≤ mo ∧ mo ≤ 12)
    (hd : 1 ≤ d ∧ (d : Int) ≤ daysInMonthI (y : Int) (mo : Int)) :
    parseParts [M, natDigits d, natDigits y]
      = (some (String.mk (fmtYmd (y, mo, d))), some (isoweekday (y, mo, d)), none) := by
  simp only [parseParts, enBranch]
  rw [assocFind_natDigits_none d]
  simp only [hlook, pyInt_natDigits, datetimeNew_valid y mo d hy hm hd]

theorem parseParts_ru (M : List Char) (mo y d : Nat)
    (hlook : assocFind (M.map pyLowerChar) MONTH_MAP = some mo)
    (hy : 1 ≤ y ∧ y ≤ 9999) (hm : 1 ≤ mo ∧ mo ≤ 12)
    (hd : 1 ≤ d ∧ (d : Int) ≤ daysInMonthI (y : Int) (mo : Int)) :
    parseParts [natDigits d, M, natDigits y]
      = (some (String.mk (fmtYmd (y, mo, d))), some (isoweekday (y, mo, d)), none) := by
  simp only [parseParts]
  simp only [hlook, pyInt_natDigits, datetimeNew_valid y mo d hy hm hd]

theorem enMonth_facts (m : Nat) (hm : 1 ≤ m ∧ m ≤ 12) :
    enMonthName m ≠ [] ∧ (∀ c ∈ enMonthName m, tokOk c = true) ∧
    assocFind ((enMonthName m).map pyLowerChar) MONTH_MAP = some m := by
  obtain ⟨h1, h2⟩ := hm
  interval_cases m <;> exact ⟨by decide, by decide, by decide⟩

theorem ruMonth_facts (m : Nat) (hm : 1 ≤ m ∧ m ≤ 12) :
    ruMonthName m ≠ [] ∧ (∀ c ∈ ruMonthName m, tokOk c = true) ∧
    assocFind ((ruMonthName m).map pyLowerChar) MONTH_MAP = some m := by
  obtain ⟨h1, h2⟩ := hm
  interval_cases m <;> exact ⟨by decide, by decide, by decide⟩

theorem enDateSentence_data (y m d : Nat) :
    (enDateSentence y m d).data = "Published:".data ++
      (' ' :: (enMonthName m ++ (' ' :: (natDigits d ++ (ordSuffix d
        ++ (' ' :: natDigits y)))))) := by
  unfold enDateSentence
  show ("Published:".data ++ ' ' :: enMonthName m ++ ' ' :: natDigits d
    ++ ordSuffix d ++ ' ' :: natDigits y : List Char) = _
  simp [List.append_assoc]

theorem ruDateSentence_data (y m d : Nat) :
    (ruDateSentence y m d).data = "Опубликовано:".data ++
      ((' ' :: natDigits d) ++ ((' ' :: ruMonthName m) ++ ((' ' :: natDigits y)
        ++ (' ' :: ['г', '.'])))) := by
  unfold ruDateSentence
  show ("Опубликовано:".data ++ ' ' :: natDigits d ++ ' ' :: ruMonthName m
    ++ ' ' :: natDigits y ++ ' ' :: ['г', '.'] : List Char) = _
  simp [List.append_assoc]

/-- Claim C5: for every calendar date (month 1-12, year in `datetime`'s
1..9999 range, day valid for the month), the English sentence template
and the Russian sentence template expressing that date are both
normalised by `_parse_behance_date` to the identical ISO date string and
identical ISO weekday number, and the hour component of the result is
`None`. -/
theorem bilingual_date_equiv (y m d : Nat) (hy : 1 ≤ y ∧ y ≤ 9999)
    (hm : 1 ≤ m ∧ m ≤ 12)
    (hd : 1 ≤ d ∧ (d : Int) ≤ daysInMonthI (y : Int) (m : Int)) :
    parse_behance_date (some (enDateSentence y m d))
        = (some (String.mk (fmtYmd (y, m, d))), some (isoweekday (y, m, d)), none) ∧
    parse_behance_date (some (ruDateSentence y m d))
        = (some (String.mk (fmtYmd (y, m, d))), some (isoweekday (y, m, d)), none) ∧
    parse_behance_date (some (enDateSentence y m d))
        = parse_behance_date (some (ruDateSentence y m d)) ∧
    (parse_behance_date (some (enDateSentence y m d))).2.2 = none := by
  obtain ⟨hMne, htok, hlook⟩ := enMonth_facts m hm
  obtain ⟨hMneR, htokR, hlookR⟩ := ruMonth_facts m hm
  have hpubcons : ("Published:".data : List Char) = 'P' :: ("ublished:".data) := by
    decide
  have hopubcons : ("Опубликовано:".data : List Char)
      = 'О' :: ("публиковано:".data) := by decide
  have hen : parse_behance_date (some (enDateSentence y m d))
      = (some (String.mk (fmtYmd (y, m, d))), some (isoweekday (y, m, d)), none) := by
    show (if (enDateSentence y m d).data.isEmpty = true then (none, none, none)
      else parseParts (preprocess (enDateSentence y m d).data)) = _
    rw [enDateSentence_data]
    rw [if_neg (by rw [hpubcons, List.cons_append]; simp)]
    rw [preprocess_en (enMonthName m) d y hMne htok]
    exact parseParts_en (enMonthName m) m y d hlook hy hm hd
  have hru : parse_behance_date (some (ruDateSentence y m d))
      = (some (String.mk (fmtYmd (y, m, d))), some (isoweekday (y, m, d)), none) := by
    show (if (ruDateSentence y m d).data.isEmpty = true then (none, none, none)
      else parseParts (preprocess (ruDateSentence y m d).data)) = _
    rw [ruDateSentence_data]
    rw [if_neg (by rw [hopubcons, List.cons_append]; simp)]
    rw [preprocess_ru (ruMonthName m) d y hMneR htokR]
    exact parseParts_ru (ruMonthName m) m y d hlookR hy hm hd
  refine ⟨hen, hru, by rw [hen, hru], by rw [hen]⟩

/-- Witness for `bilingual_date_equiv` at the spec's own example date,
13 January 2026. -/
theorem bilingual_date_equiv_witness :
    parse_behance_date (some (enDateSentence 2026 1 13))
      = parse_behance_date (some (ruDateSentence 2026 1 13)) ∧
    (parse_behance_date (some (enDateSentence 2026 1 13))).1 = some ("2026-01-13") ∧
    (parse_behance_date (some (enDateSentence 2026 1 13))).2.1 = some 2 ∧
    (parse_behance_date (some (enDateSentence 2026 1 13))).2.2 = none := by
  obtain ⟨h1, h2, h3, h4⟩ :=
    bilingual_date_equiv 2026 1 13 (by decide) (by decide) (by decide)
  refine ⟨h3, ?_, ?_, h4⟩
  · rw [h1]
    decide
  · rw [h1]
    decide
